import Mathlib

/-
Verification of the Random Chess engine core.

This development shallowly embeds the engine's Rust sources:
  - src/engine/alphabeta/bounds.rs  (search window arithmetic)
  - src/engine/alphabeta.rs         (the pruning expectiminimax search)
  - src/engine/position_table.rs    (the transposition table)
  - src/my_board.rs                 (board mutation and the Zobrist hash)
  - src/engine/evaluator.rs, proportion_count.rs, feature_eval.rs

The crate root that defines the fixed-point `Score` type, the constants
`ZERO`/`ONE`/`DELTA`, the chance constants `bonus_chance()` /
`no_bonus_chance()` and the `zobrist` module is not part of the sources;
those pieces are modelled from the specification (see the doc comments
marked "Modelled from the spec").  Everything else is translated from the
Rust sources; panics (assert!, expect, panic!) are modelled by `Option`
results where `none` means the Rust code aborts.
-/

namespace RandomChess

/-- Modelled from the spec: `Score` is "a rational in [0,1] encoded in
fixed-point (>= 30 fractional bits)" with constants ZERO, ONE and DELTA
(the smallest positive step) and checked add/sub/mul/div.  We model the
raw integer payload of a fixed-point number with 31 fractional bits, so a
score value s denotes the rational s / 2^31.  `SCALE` is the
representation of `ONE`. -/
def SCALE : ℕ := 2 ^ 31

/-- Modelled from the spec: the raw representation of the constant `ONE`. -/
def ONE : ℕ := SCALE

/-- Modelled from the spec: the raw representation of the constant `ZERO`. -/
def ZERO : ℕ := 0

/-- Modelled from the spec: `DELTA` is the smallest positive step of the
fixed-point type, i.e. one raw unit. -/
def DELTA : ℕ := 1

/-- Modelled from the spec: fixed-point multiplication.  The exact product
of a/SCALE and b/SCALE is a*b/SCALE^2; the fixed-point result truncates
(rounds towards minus infinity, the standard fixed-point behaviour) to
a*b/SCALE raw units. -/
def smul (a b : ℕ) : ℕ := a * b / SCALE

/-- Modelled from the spec: fixed-point division (truncating); the raw
result of (a/SCALE) / (b/SCALE) is a*SCALE/b. -/
def sdiv (a b : ℕ) : ℕ := a * SCALE / b

/-- Modelled from the spec: `checked_sub` returns `none` on underflow. -/
def checked_sub (a b : ℕ) : Option ℕ := if b ≤ a then some (a - b) else none

/-- Modelled from the spec: the process-wide bonus probability p = 1/4. -/
def bonus_chance : ℕ := SCALE / 4

/-- Modelled from the spec: q = 1 - p = 3/4. -/
def no_bonus_chance : ℕ := SCALE - SCALE / 4

/-- From src/engine/alphabeta/bounds.rs: exclusive search window over
[0,1]; `none` on a side means that side is unbounded. -/
structure Bounds where
  min : Option ℕ
  max : Option ℕ
deriving DecidableEq

/-- From bounds.rs: `widest()`. -/
def Bounds.widest : Bounds := { min := none, max := none }

/-- From bounds.rs: `score_too_low`. -/
def Bounds.score_too_low (b : Bounds) (score : ℕ) : Bool :=
  match b.min with
  | some mn => decide (score ≤ mn)
  | none => false

/-- From bounds.rs: `score_too_high`. -/
def Bounds.score_too_high (b : Bounds) (score : ℕ) : Bool :=
  match b.max with
  | some mx => decide (mx ≤ score)
  | none => false

/-- From bounds.rs: `contains`. -/
def Bounds.contains (b : Bounds) (score : ℕ) : Bool :=
  !b.score_too_low score && !b.score_too_high score

/-- From bounds.rs: `min_decreased_by` (saturating the min side to
absent on underflow). -/
def Bounds.min_decreased_by (b : Bounds) (amount : ℕ) : Bounds :=
  { min :=
      match b.min with
      | some mn => checked_sub mn amount
      | none => none,
    max := b.max }

/-- From bounds.rs: `expanded` divides both sides by `amount`.  The two
`assert!`s on the argument, the `expect` on the min division and the
`assert!` that the new min is at most ONE are modelled by returning
`none` (the Rust code panics).  On the max side a quotient that
overflows the fixed-point type or exceeds ONE becomes absent. -/
def Bounds.expanded (b : Bounds) (amount : ℕ) : Option Bounds :=
  if ¬ (ZERO < amount ∧ amount < ONE) then none
  else
    let newMax : Option ℕ :=
      match b.max with
      | some mx =>
        let v := sdiv mx amount
        if v ≤ ONE then some v else none
      | none => none
    match b.min with
    | none => some { min := none, max := newMax }
    | some mn =>
      let v := sdiv mn amount
      if v ≤ ONE then some { min := some v, max := newMax } else none

/-- From bounds.rs: `both_decreased_by`.  The `expect` when decreasing a
present max underflows, and the (debug) overflow of `ONE - amount` when
the max is absent, are modelled by `none`. -/
def Bounds.both_decreased_by (b : Bounds) (amount : ℕ) : Option Bounds :=
  let newMin : Option ℕ :=
    match b.min with
    | some mn => checked_sub mn amount
    | none => none
  match b.max with
  | some mx =>
    match checked_sub mx amount with
    | some v => some { min := newMin, max := some v }
    | none => none
  | none =>
    if amount ≤ ONE then some { min := newMin, max := some (ONE - amount + DELTA) }
    else none

/-- From bounds.rs: `valid`. -/
def Bounds.valid (b : Bounds) : Bool :=
  match b.max with
  | some mx =>
    decide (mx ≤ ONE) &&
      (match b.min with
       | some mn => decide (mn < mx)
       | none => true)
  | none => true

/-- From bounds.rs: `update_min` (tightens the min side). -/
def Bounds.update_min (b : Bounds) (score : ℕ) : Bounds :=
  match b.min with
  | some mn => if mn < score then { b with min := some score } else b
  | none => { b with min := some score }

/-- From bounds.rs: `update_max` (tightens the max side). -/
def Bounds.update_max (b : Bounds) (score : ℕ) : Bounds :=
  match b.max with
  | some mx => if score < mx then { b with max := some score } else b
  | none => { b with max := some score }

/-- From src/engine/alphabeta/score_info.rs: inclusive bound pair stored
in the position table. -/
structure ScoreInfo where
  min : ℕ
  max : ℕ
deriving DecidableEq

/-- From score_info.rs: `actual_score`. -/
def ScoreInfo.actual_score (s : ScoreInfo) : Option ℕ :=
  if s.min = s.max then some s.min else none

/-- From score_info.rs: `from_score`. -/
def ScoreInfo.from_score (score : ℕ) : ScoreInfo := { min := score, max := score }

/-- From score_info.rs: `from_min_score`. -/
def ScoreInfo.from_min_score (mn : ℕ) : ScoreInfo := { min := mn, max := ONE }

/-- From score_info.rs: `from_max_score`. -/
def ScoreInfo.from_max_score (mx : ℕ) : ScoreInfo := { min := ZERO, max := mx }

/-- From bounds.rs: `info_too_low`. -/
def Bounds.info_too_low (b : Bounds) (si : ScoreInfo) : Bool :=
  match b.min with
  | some mn => decide (si.max ≤ mn)
  | none => false

/-- From bounds.rs: `info_too_high`. -/
def Bounds.info_too_high (b : Bounds) (si : ScoreInfo) : Bool :=
  match b.max with
  | some mx => decide (mx ≤ si.min)
  | none => false

/-- The max side computed by `expanded`: divided by the amount, absent
if the quotient exceeds ONE. -/
def expanded_max_side (mx? : Option ℕ) (a : ℕ) : Option ℕ :=
  match mx? with
  | some mx => if sdiv mx a ≤ ONE then some (sdiv mx a) else none
  | none => none

/-! ## Transposition table (src/engine/position_table.rs) -/

/-- From position_table.rs: `TABLE_SIZE`. -/
def TABLE_SIZE : ℕ := 2 ^ 24

/-- From position_table.rs: `Parameters` (depth and dead-move counter of
an evaluation; both are `u8` in the source). -/
structure Parameters where
  depth : ℕ
  dead_moves : ℕ
deriving DecidableEq

/-- From position_table.rs: `Position` stores just the Zobrist hash. -/
structure Position where
  zobrist_hash : ℕ
deriving DecidableEq

/-- From position_table.rs: `Evaluation` is one table slot's contents. -/
structure Evaluation (S : Type) where
  position : Position
  parameters : Parameters
  score : S

/-- From position_table.rs: `Position::as_index`, the slot of a hash. -/
def Position.as_index (p : Position) : Fin TABLE_SIZE :=
  ⟨p.zobrist_hash % TABLE_SIZE, Nat.mod_lt _ (by decide)⟩

/-- From position_table.rs: `saw_50_move_rule`.  The source computes
`50 - dead_moves <= depth` on `u8`; the boards of this program keep
`dead_moves <= 50` (asserted in `apply_move_unchecked`), where natural
truncated subtraction agrees with `u8` subtraction. -/
def Parameters.saw_50_move_rule (p : Parameters) : Bool :=
  decide (50 - p.dead_moves ≤ p.depth)

/-- From position_table.rs: `should_replace`. -/
def Parameters.should_replace (p other : Parameters) : Bool :=
  decide (other.depth ≤ p.depth) ||
    (decide (p.dead_moves ≠ other.dead_moves) &&
      (p.saw_50_move_rule || other.saw_50_move_rule))

/-- From position_table.rs: `better_than`. -/
def Parameters.better_than (p other : Parameters) : Bool :=
  decide (other.depth ≤ p.depth) &&
    (decide (p.dead_moves = other.dead_moves) ||
      (!p.saw_50_move_rule && !other.saw_50_move_rule))

/-- The table slots of `PositionTable`, modelled as a total function on
slot indices (the fixed-size array of position_table.rs).  The debug
statistics counters of the source are omitted: they do not influence any
returned value. -/
def PositionTable (S : Type) := Fin TABLE_SIZE → Option (Evaluation S)

/-- The freshly allocated table of `PositionTable::new`: all slots empty. -/
def PositionTable.empty (S : Type) : PositionTable S := fun _ => none

/-- From position_table.rs: `insert_position`. -/
def PositionTable.insert_position {S : Type} (t : PositionTable S)
    (pos : Position) (params : Parameters) (score : S) : PositionTable S :=
  let idx := pos.as_index
  let write : Bool :=
    match t idx with
    | none => true
    | some ev =>
      if ev.position = pos ∧ ¬ params.should_replace ev.parameters then false
      else true
  if write then
    fun i => if i = idx then some { position := pos, parameters := params, score := score } else t i
  else t

/-- From position_table.rs: the body of `get`, with the `Position` and
`Parameters` already extracted from the board (`Position::from_board`
and the construction of `params` are inlined by the callers). -/
def PositionTable.get_core {S : Type} (t : PositionTable S)
    (pos : Position) (params : Parameters) : Option S :=
  match t pos.as_index with
  | some ev =>
    if ev.position ≠ pos then none
    else if ev.parameters.better_than params then some ev.score
    else none
  | none => none

/-- From position_table.rs: the body of `get_lenient` with the
`Position` already extracted from the board. -/
def PositionTable.get_lenient_core {S : Type} (t : PositionTable S)
    (pos : Position) : Option S :=
  match t pos.as_index with
  | some ev => if ev.position = pos then some ev.score else none
  | none => none

/-! ## The alpha-beta search (src/engine/alphabeta.rs)

The search is generic in the board: the board representation, its move
type, move generation, the two-child `next_boards` construction and the
static evaluator are consumed through the `BoardOps` interface, exactly
the operations `get_scored_best_move` uses.  Panics are `none`. -/

/-- From my_board.rs: the `Color` enum of the chess crate. -/
inductive Color where
  | white
  | black
deriving DecidableEq

/-- From my_board.rs: `Status`. -/
inductive Status where
  | inProgress
  | win (c : Color)
  | draw
deriving DecidableEq

/-- From my_board.rs: `Status::is_in_progress`. -/
def Status.is_in_progress : Status → Bool
  | .inProgress => true
  | _ => false

/-- From src/engine/alphabeta.rs: `SearchResult`. -/
inductive SearchResult (M : Type) where
  | result (score : ℕ) (mv : Option M)
  | low
  | high
deriving DecidableEq

/-- Whether a search result is `Low` (used for the source's
`matches!(result, Low)`). -/
def SearchResult.isLow {M : Type} : SearchResult M → Bool
  | .low => true
  | _ => false

/-- The board interface consumed by the search: the operations of
`MyBoard` (and of `Engine::next_boards`, which combines
`apply_move_unchecked` with `apply_bonus` / `apply_bonus_unchecked`)
that `get_scored_best_move` uses, together with the static evaluator the
engine owns.  `next_boards` returns (bonus board, no-bonus board). -/
structure BoardOps (B M : Type) where
  status : B → Status
  side_to_move : B → Color
  dead_moves : B → ℕ
  zobrist : B → ℕ
  all_moves : B → List M
  next_boards : B → M → Bool → B × B
  evaluate : B → ℕ

/-- From alphabeta.rs: `update_table_for_result`.  The two `expect`s
(`shouldn't return Low if there is no minimum bound` and its max
counterpart) are modelled by `none`. -/
def update_table_for_result {M : Type} (table : PositionTable ScoreInfo)
    (pos : Position) (dead_moves depth : ℕ) (bounds : Bounds)
    (result : SearchResult M) : Option (PositionTable ScoreInfo) :=
  match result with
  | .result score _ =>
    some (table.insert_position pos ⟨depth, dead_moves⟩ (ScoreInfo.from_score score))
  | .low =>
    match bounds.min with
    | some mn => some (table.insert_position pos ⟨depth, dead_moves⟩ (ScoreInfo.from_max_score mn))
    | none => none
  | .high =>
    match bounds.max with
    | some mx => some (table.insert_position pos ⟨depth, dead_moves⟩ (ScoreInfo.from_min_score mx))
    | none => none

/-- Outcome of the table consultation at the top of
`get_scored_best_move`. -/
inductive TableOut (M : Type) where
  | panic
  | ret (r : SearchResult M)
  | fallthrough

/-- From alphabeta.rs (lines 213-230): the position-table consultation on
entry.  `si?` is the result of `position_table.get`.  The
`assert!(bounds.max != None)` before returning `High` is kept (its
failure is `panic`). -/
def table_check {M : Type} (lookahead depth : ℕ) (bounds : Bounds)
    (si? : Option ScoreInfo) : TableOut M :=
  match si? with
  | none => .fallthrough
  | some si =>
    if bounds.info_too_low si then .ret .low
    else if bounds.info_too_high si then
      if bounds.max = none then .panic else .ret .high
    else
      match si.actual_score with
      | some score => if depth ≠ lookahead then .ret (.result score none) else .fallthrough
      | none => .fallthrough

/-- From alphabeta.rs (lines 234-244): the leaf case — evaluate
statically, insert the exact score, and return as the bounds dictate. -/
def leaf_step {M : Type} (ev : ℕ) (bounds : Bounds) (pos : Position)
    (dead_moves depth : ℕ) (table : PositionTable ScoreInfo) :
    SearchResult M × PositionTable ScoreInfo :=
  let t := table.insert_position pos ⟨depth, dead_moves⟩ (ScoreInfo.from_score ev)
  if bounds.score_too_low ev then (.low, t)
  else if bounds.score_too_high ev then (.high, t)
  else (.result ev none, t)

/-- From alphabeta.rs (lines 252-284): the per-move body of the search
loop — build the two chance children, recurse on the no-bonus child
under `nb_bounds`, then (on a score) recurse on the bonus child under
`b_bounds` and combine with the chance weights, coercing a rounding
escape onto the nearer bound (`panic!("score is distinctly out of
bounds")` is `none`). -/
def move_step {B M : Type} (recurse : B → Bounds → PositionTable ScoreInfo → Option (SearchResult M × PositionTable ScoreInfo))
    (ops : BoardOps B M) (board : B) (depth : ℕ) (mv : M) (bounds : Bounds)
    (table : PositionTable ScoreInfo) : Option (SearchResult M × PositionTable ScoreInfo) :=
  let bb := ops.next_boards board mv (decide (depth ≠ 1))
  match (bounds.min_decreased_by bonus_chance).expanded no_bonus_chance with
  | none => none
  | some nb_bounds =>
    match recurse bb.2 nb_bounds table with
    | none => none
    | some (nb_result, t1) =>
      match nb_result with
      | .result nb_score _ =>
        match (bounds.both_decreased_by (smul nb_score no_bonus_chance)).bind
            (fun x => x.expanded bonus_chance) with
        | none => none
        | some b_bounds =>
          match recurse bb.1 b_bounds t1 with
          | none => none
          | some (b_result, t2) =>
            match b_result with
            | .result b_score _ =>
              let score := smul b_score bonus_chance + smul nb_score no_bonus_chance
              if bounds.contains score then some (.result score none, t2)
              else if bounds.min = some score then some (.low, t2)
              else if bounds.max = some score then some (.high, t2)
              else none
            | other => some (other, t2)
      | other => some (other, t1)

/-- From alphabeta.rs (lines 252-328): the move loop of
`get_scored_best_move`, including the post-loop construction of the
result from the best move found and the final table write.  The
`assert!(bounds.contains(score))` after a move's result is kept as a
guard. -/
def search_loop {B M : Type} (recurse : B → Bounds → PositionTable ScoreInfo → Option (SearchResult M × PositionTable ScoreInfo))
    (ops : BoardOps B M) (board : B) (depth : ℕ) (is_maxing : Bool)
    (pos : Position) (dm : ℕ) :
    List M → Bounds → Option (ℕ × M) → PositionTable ScoreInfo →
    Option (SearchResult M × PositionTable ScoreInfo)
  | [], bounds, best, table =>
    let res : SearchResult M :=
      match best with
      | some (score, mv) => .result score (some mv)
      | none => if is_maxing then .low else .high
    match update_table_for_result table pos dm depth bounds res with
    | some t => some (res, t)
    | none => none
  | mv :: rest, bounds, best, table =>
    match move_step recurse ops board depth mv bounds table with
    | none => none
    | some (r, t1) =>
      match r with
      | .result score _ =>
        if ¬ bounds.contains score then none
        else
          let bounds' := if is_maxing then bounds.update_min score else bounds.update_max score
          let best' :=
            match best with
            | none => some (score, mv)
            | some (best_score, best_mv) =>
              if (is_maxing ∧ best_score < score) ∨ (is_maxing = false ∧ score < best_score) then
                some (score, mv)
              else some (best_score, best_mv)
          search_loop recurse ops board depth is_maxing pos dm rest bounds' best' t1
      | _ =>
        if is_maxing = r.isLow then
          search_loop recurse ops board depth is_maxing pos dm rest bounds best t1
        else
          let res : SearchResult M := if is_maxing then .high else .low
          match update_table_for_result t1 pos dm depth bounds res with
          | some t2 => some (res, t2)
          | none => none

/-- From alphabeta.rs (lines 207-328): `get_scored_best_move`.  The
entry `assert!(bounds.valid())` is a guard; the `branch_info` and
`rounding_errors` statistics of the source are omitted (they do not
influence any returned value). -/
def get_scored_best_move {B M : Type} (ops : BoardOps B M) (lookahead : ℕ) :
    ℕ → B → Bounds → PositionTable ScoreInfo →
    Option (SearchResult M × PositionTable ScoreInfo)
  | 0, board, bounds, table =>
    if ¬ bounds.valid then none
    else
      let pos : Position := ⟨ops.zobrist board⟩
      match table_check (M := M) lookahead 0 bounds (table.get_core pos ⟨0, ops.dead_moves board⟩) with
      | .panic => none
      | .ret r => some (r, table)
      | .fallthrough =>
        some (leaf_step (ops.evaluate board) bounds pos (ops.dead_moves board) 0 table)
  | depth + 1, board, bounds, table =>
    if ¬ bounds.valid then none
    else
      let pos : Position := ⟨ops.zobrist board⟩
      match table_check (M := M) lookahead (depth + 1) bounds
          (table.get_core pos ⟨depth + 1, ops.dead_moves board⟩) with
      | .panic => none
      | .ret r => some (r, table)
      | .fallthrough =>
        if ¬ (ops.status board).is_in_progress then
          some (leaf_step (ops.evaluate board) bounds pos (ops.dead_moves board) (depth + 1) table)
        else
          search_loop (get_scored_best_move ops lookahead depth) ops board (depth + 1)
            (decide (ops.side_to_move board = .white)) pos (ops.dead_moves board)
            (ops.all_moves board) bounds none table

/-- From alphabeta.rs (lines 425-430): `Engine::evaluate` for
`AlphaBeta` — search with the widest bounds; the
`panic!("pruning should not happen with the widest bounds")` is `none`. -/
def alphabeta_evaluate {B M : Type} (ops : BoardOps B M) (lookahead : ℕ)
    (board : B) (table : PositionTable ScoreInfo) : Option (ℕ × PositionTable ScoreInfo) :=
  match get_scored_best_move ops lookahead lookahead board Bounds.widest table with
  | some (.result score _, t) => some (score, t)
  | _ => none

/-- From alphabeta.rs (lines 432-446): `Engine::get_move` for
`AlphaBeta` — search with the widest bounds at the full lookahead; the
`expect("move should be returned at top level")` and the pruning panic
are `none`.  The console logging of the source is omitted. -/
def alphabeta_get_move {B M : Type} (ops : BoardOps B M) (lookahead : ℕ)
    (board : B) (table : PositionTable ScoreInfo) : Option (M × PositionTable ScoreInfo) :=
  match get_scored_best_move ops lookahead lookahead board Bounds.widest table with
  | some (.result _ (some mv), t) => some (mv, t)
  | _ => none

/-! ## The board (src/my_board.rs)

`MyBoard` is translated from my_board.rs.  The primitive move-target
tables of the external `chess` crate (`get_pawn_moves`,
`get_knight_moves`, ..., `CastleRights::Both.kingside_squares`) are
out-of-scope library code and are abstracted as a `MoveGen` record; the
`zobrist` module is not under src/ and is modelled from the spec as a
record of per-feature constants. -/

/-- From my_board.rs / the chess crate: a square, indexed 0..63 with
index = rank * 8 + file. -/
abbrev Square : Type := Fin 64

/-- Rank (0-based) of a square. -/
def Square.rank (sq : Square) : ℕ := sq.val / 8

/-- File (0-based) of a square. -/
def Square.file (sq : Square) : ℕ := sq.val % 8

/-- `Square::make_square` of the chess crate (rank, file both 0-based,
each < 8). -/
def Square.make (rank file : Fin 8) : Square :=
  ⟨rank.val * 8 + file.val, by omega⟩

/-- From the chess crate: the `Piece` enum. -/
inductive Piece where
  | pawn
  | knight
  | bishop
  | rook
  | queen
  | king
deriving DecidableEq, Fintype

/-- From the chess crate: the `CastleRights` enum. -/
inductive CastleRights where
  | noRights
  | kingSide
  | queenSide
  | both
deriving DecidableEq

/-- Chess crate `CastleRights::has_kingside`. -/
def CastleRights.has_kingside : CastleRights → Bool
  | .kingSide => true
  | .both => true
  | _ => false

/-- Chess crate `CastleRights::has_queenside`. -/
def CastleRights.has_queenside : CastleRights → Bool
  | .queenSide => true
  | .both => true
  | _ => false

/-- Build castle rights from the two side flags. -/
def CastleRights.make (k q : Bool) : CastleRights :=
  match k, q with
  | true, true => .both
  | true, false => .kingSide
  | false, true => .queenSide
  | false, false => .noRights

/-- Chess crate `CastleRights::remove`. -/
def CastleRights.remove (a b : CastleRights) : CastleRights :=
  CastleRights.make (a.has_kingside && !b.has_kingside)
    (a.has_queenside && !b.has_queenside)

/-- The other color (`!color` of the chess crate). -/
def Color.not : Color → Color
  | .white => .black
  | .black => .white

/-- Chess crate `CastleRights::square_to_castle_rights`: which rights a
move touching this square strips for the given color. -/
def square_to_castle_rights (c : Color) (sq : Square) : CastleRights :=
  let backrank : Fin 8 := match c with | .white => 0 | .black => 7
  if sq = Square.make backrank 0 then .queenSide
  else if sq = Square.make backrank 7 then .kingSide
  else if sq = Square.make backrank 4 then .both
  else .noRights

/-- From the chess crate: a move. -/
structure ChessMove where
  source : Square
  dest : Square
  promotion : Option Piece
deriving DecidableEq

/-- A chess-crate `BitBoard`, modelled as its set of squares. -/
abbrev BitBoard : Type := Square → Bool

/-- The empty bitboard (`EMPTY`). -/
def BitBoard.emptyBB : BitBoard := fun _ => false

/-- `BitBoard::from_square`. -/
def BitBoard.from_square (sq : Square) : BitBoard := fun s => decide (s = sq)

/-- Bitboard union. -/
def BitBoard.or (a b : BitBoard) : BitBoard := fun s => a s || b s

/-- Bitboard intersection. -/
def BitBoard.and (a b : BitBoard) : BitBoard := fun s => a s && b s

/-- Bitboard complement. -/
def BitBoard.not (a : BitBoard) : BitBoard := fun s => !a s

/-- Remove a square from a bitboard (`bb &= !BitBoard::from_square(sq)`). -/
def BitBoard.clear (a : BitBoard) (sq : Square) : BitBoard :=
  BitBoard.and a (BitBoard.not (BitBoard.from_square sq))

/-- Add a square to a bitboard (`bb |= BitBoard::from_square(sq)`). -/
def BitBoard.set (a : BitBoard) (sq : Square) : BitBoard :=
  BitBoard.or a (BitBoard.from_square sq)

/-- The squares of a bitboard in ascending index order (bitboard
iteration of the chess crate). -/
def BitBoard.squares (a : BitBoard) : List Square :=
  (List.finRange 64).filter (fun sq => a sq)

/-- The move-target tables of the external chess crate, abstracted: the
crate is outside this repository.  Each field mirrors one primitive the
board code calls. -/
structure MoveGen where
  pawn_moves : Square → Color → BitBoard → BitBoard
  knight_moves : Square → BitBoard
  bishop_moves : Square → BitBoard → BitBoard
  rook_moves : Square → BitBoard → BitBoard
  king_moves : Square → BitBoard
  kingside_squares : Color → BitBoard
  queenside_squares : Color → BitBoard

/-- Modelled from the spec: the Zobrist hasher is "an XOR-accumulated
64-bit key derived from per-feature random constants (piece-at-square,
side-to-move, castling)"; the `zobrist` module itself is not under src/.
The constants are abstracted as a record of arbitrary values. -/
structure Zobrist where
  piece : Piece → Square → Color → ℕ
  castles : CastleRights → Color → ℕ
  color : ℕ

/-- From my_board.rs: the board state. -/
structure MyBoard where
  pieces : Square → Option (Piece × Color)
  side_to_move : Color
  castle_rights : Color → CastleRights
  dead_moves : ℕ
  status : Status
  awaiting_bonus : Bool
  white_pieces : BitBoard
  black_pieces : BitBoard
  zobrist_hash : ℕ

/-- From my_board.rs: `color_combined`. -/
def MyBoard.color_combined (b : MyBoard) (c : Color) : BitBoard :=
  match c with
  | .white => b.white_pieces
  | .black => b.black_pieces

/-- From my_board.rs: `combined`. -/
def MyBoard.combined (b : MyBoard) : BitBoard :=
  BitBoard.or (b.color_combined .white) (b.color_combined .black)

/-- From my_board.rs: `set_piece` — update one square, keeping the
bitboards and the Zobrist hash in sync. -/
def MyBoard.set_piece (z : Zobrist) (b : MyBoard) (sq : Square)
    (piece : Option (Piece × Color)) : MyBoard :=
  let b1 :=
    match b.pieces sq with
    | some (p, c) =>
      match c with
      | .white =>
        { b with white_pieces := b.white_pieces.clear sq,
                 zobrist_hash := b.zobrist_hash ^^^ z.piece p sq c }
      | .black =>
        { b with black_pieces := b.black_pieces.clear sq,
                 zobrist_hash := b.zobrist_hash ^^^ z.piece p sq c }
    | none => b
  let b2 :=
    match piece with
    | some (p, c) =>
      match c with
      | .white =>
        { b1 with white_pieces := b1.white_pieces.set sq,
                  zobrist_hash := b1.zobrist_hash ^^^ z.piece p sq c }
      | .black =>
        { b1 with black_pieces := b1.black_pieces.set sq,
                  zobrist_hash := b1.zobrist_hash ^^^ z.piece p sq c }
    | none => b1
  { b2 with pieces := fun s => if s = sq then piece else b2.pieces s }

/-- From my_board.rs: `set_castle_rights` (XOR out the old rights term,
XOR in the new one). -/
def MyBoard.set_castle_rights (z : Zobrist) (b : MyBoard) (c : Color)
    (rights : CastleRights) : MyBoard :=
  let h := b.zobrist_hash ^^^ z.castles (b.castle_rights c) c ^^^ z.castles rights c
  { b with zobrist_hash := h,
           castle_rights := fun col => if col = c then rights else b.castle_rights col }

/-- From my_board.rs: `switch_side_to_move`. -/
def MyBoard.switch_side_to_move (z : Zobrist) (b : MyBoard) : MyBoard :=
  { b with zobrist_hash := b.zobrist_hash ^^^ z.color,
           side_to_move := b.side_to_move.not }

/-- The standard starting placement produced by the chess crate's
`BoardBuilder::default()` (external library): back rank piece for a
file index. -/
def backrank_piece : Fin 8 → Piece
  | 0 => .rook
  | 1 => .knight
  | 2 => .bishop
  | 3 => .queen
  | 4 => .king
  | 5 => .bishop
  | 6 => .knight
  | 7 => .rook

/-- The starting position's piece placement. -/
def initial_pieces (sq : Square) : Option (Piece × Color) :=
  if h0 : sq.rank = 0 then some (backrank_piece ⟨sq.file, Nat.mod_lt _ (by omega)⟩, .white)
  else if sq.rank = 1 then some (.pawn, .white)
  else if sq.rank = 6 then some (.pawn, .black)
  else if sq.rank = 7 then some (backrank_piece ⟨sq.file, Nat.mod_lt _ (by omega)⟩, .black)
  else none

/-- The piece term a square contributes to the Zobrist key. -/
def piece_term (z : Zobrist) (ps : Square → Option (Piece × Color)) (sq : Square) : ℕ :=
  match ps sq with
  | some (p, c) => z.piece p sq c
  | none => 0

/-- XOR of the piece terms of all 64 squares (the loop of
`initial_board` over `ALL_SQUARES`). -/
def piece_xor (z : Zobrist) (ps : Square → Option (Piece × Color)) : ℕ :=
  (List.finRange 64).foldr (fun sq acc => piece_term z ps sq ^^^ acc) 0

/-- From my_board.rs: `initial_board`. -/
def MyBoard.initial_board (z : Zobrist) (starting_color : Color) : MyBoard :=
  let bitboard_of : Color → BitBoard := fun c => fun sq =>
    match initial_pieces sq with
    | some (_, c2) => decide (c2 = c)
    | none => false
  { pieces := initial_pieces
    side_to_move := starting_color
    castle_rights := fun _ => .both
    dead_moves := 0
    status := .inProgress
    awaiting_bonus := false
    white_pieces := bitboard_of .white
    black_pieces := bitboard_of .black
    zobrist_hash :=
      piece_xor z initial_pieces ^^^ z.castles .both .white ^^^ z.castles .both .black ^^^
        (if starting_color = .black then z.color else 0) }

/-- From my_board.rs: the dead-move bookkeeping of
`apply_move_unchecked` (capture or pawn move resets the counter; the
`assert!(self.dead_moves <= 50)` is `none`; reaching 50 sets a draw).
`captured` is whether the destination square was occupied before the
move. -/
def dead_move_step (b : MyBoard) (captured : Bool) (p : Piece) : Option MyBoard :=
  if captured || decide (p = .pawn) then some { b with dead_moves := 0 }
  else
    if b.dead_moves + 1 ≤ 50 then
      some { b with dead_moves := b.dead_moves + 1,
                    status := if b.dead_moves + 1 = 50 then .draw else b.status }
    else none

/-- From my_board.rs: the castling rook relocation of
`apply_move_unchecked` (king moving from the E file to the G or C file
drags the rook). -/
def castle_rook_step (z : Zobrist) (b : MyBoard) (m : ChessMove) (p : Piece) (c : Color) : MyBoard :=
  if p = .king ∧ m.source.file = 4 then
    if m.dest.file = 6 then
      let src : Square := match c with | .white => Square.make 0 7 | .black => Square.make 7 7
      let dst : Square := match c with | .white => Square.make 0 5 | .black => Square.make 7 5
      MyBoard.set_piece z (MyBoard.set_piece z b dst (some (.rook, c))) src none
    else if m.dest.file = 2 then
      let src : Square := match c with | .white => Square.make 0 0 | .black => Square.make 7 0
      let dst : Square := match c with | .white => Square.make 0 3 | .black => Square.make 7 3
      MyBoard.set_piece z (MyBoard.set_piece z b dst (some (.rook, c))) src none
    else b
  else b

/-- From my_board.rs: `apply_move_unchecked`.  The
`assert!(!self.awaiting_bonus)` and the `expect("No piece at source")`
are `none`. -/
def MyBoard.apply_move_unchecked (z : Zobrist) (b : MyBoard) (m : ChessMove) : Option MyBoard :=
  if b.awaiting_bonus then none
  else
    match b.pieces m.source with
    | none => none
    | some (p, c) =>
      let b0 := { b with awaiting_bonus := true }
      let b1 := b0.set_castle_rights z c
        ((b0.castle_rights c).remove (square_to_castle_rights c m.source))
      let b2 := b1.set_castle_rights z c.not
        ((b1.castle_rights c.not).remove (square_to_castle_rights c.not m.dest))
      let b3 :=
        match b2.pieces m.dest with
        | some (.king, _) => { b2 with status := .win c }
        | _ => b2
      match dead_move_step b3 (b3.pieces m.dest).isSome p with
      | none => none
      | some b4 =>
        let b5 := b4.set_piece z m.dest (some (p, c))
        let b6 := b5.set_piece z m.source none
        let b7 := castle_rook_step z b6 m p c
        let b8 :=
          match m.promotion with
          | some pp => b7.set_piece z m.dest (some (pp, c))
          | none => b7
        some (b8.switch_side_to_move z)

/-- From my_board.rs: `moves_from`.  The chess-crate move tables come
from `mg`; the `assert!(!self.awaiting_bonus)` holds at every call site
of this development. -/
def MyBoard.moves_from (mg : MoveGen) (b : MyBoard) (sq : Square) : List ChessMove :=
  if b.status.is_in_progress = false then []
  else
    match b.pieces sq with
    | none => []
    | some (piece, color) =>
      if color ≠ b.side_to_move then []
      else
        let not_self := BitBoard.not (b.color_combined color)
        let all := b.combined
        let targets : BitBoard :=
          match piece with
          | .pawn => mg.pawn_moves sq color all
          | .knight => mg.knight_moves sq
          | .bishop => mg.bishop_moves sq all
          | .rook => mg.rook_moves sq all
          | .queen => BitBoard.or (mg.bishop_moves sq all) (mg.rook_moves sq all)
          | .king => mg.king_moves sq
        let moves := (BitBoard.and targets not_self).squares.map
          (fun dest => ChessMove.mk sq dest none)
        let moves := moves ++
          (if piece = .king then
            (if (b.castle_rights color).has_kingside ∧
                BitBoard.and all (mg.kingside_squares color) = BitBoard.emptyBB then
              [ChessMove.mk sq (kingside_castle_square color) none]
            else []) ++
            (if (b.castle_rights color).has_queenside ∧
                BitBoard.and all (mg.queenside_squares color) = BitBoard.emptyBB then
              [ChessMove.mk sq (queenside_castle_square color) none]
            else [])
          else [])
        if piece = .pawn then
          moves.flatMap (fun m =>
            if m.dest.rank = their_backrank color then
              promotion_pieces.map (fun pp => ChessMove.mk m.source m.dest (some pp))
            else [m])
        else moves
where
  kingside_castle_square : Color → Square
    | .white => Square.make 0 6
    | .black => Square.make 7 6
  queenside_castle_square : Color → Square
    | .white => Square.make 0 2
    | .black => Square.make 7 2
  their_backrank : Color → ℕ
    | .white => 7
    | .black => 0
  promotion_pieces : List Piece := [.queen, .knight, .rook, .bishop]

/-- From my_board.rs: `all_moves` — moves from every square of the
side-to-move's bitboard. -/
def MyBoard.all_moves (mg : MoveGen) (b : MyBoard) : List ChessMove :=
  ((match b.side_to_move with
    | .white => b.white_pieces
    | .black => b.black_pieces).squares).flatMap (fun sq => b.moves_from mg sq)

/-- From my_board.rs: `apply_move` — assert the move is generated by
`moves_from` for its source square, then apply (the failed assert is
`none`). -/
def MyBoard.apply_move (z : Zobrist) (mg : MoveGen) (b : MyBoard) (m : ChessMove) : Option MyBoard :=
  if b.awaiting_bonus then none
  else if m ∈ b.moves_from mg m.source then b.apply_move_unchecked z m
  else none

/-- From my_board.rs: `apply_bonus_unchecked` (the
`assert!(self.awaiting_bonus)` is `none`). -/
def MyBoard.apply_bonus_unchecked (z : Zobrist) (b : MyBoard) (is_bonus : Bool) : Option MyBoard :=
  if ¬ b.awaiting_bonus then none
  else
    let b1 := { b with awaiting_bonus := false }
    some (if is_bonus then b1.switch_side_to_move z else b1)

/-- From my_board.rs: `apply_bonus` — the unchecked variant plus the
no-moves draw detection. -/
def MyBoard.apply_bonus (z : Zobrist) (mg : MoveGen) (b : MyBoard) (is_bonus : Bool) : Option MyBoard :=
  match b.apply_bonus_unchecked z is_bonus with
  | none => none
  | some b1 =>
    some (if b1.all_moves mg = [] ∧ b1.status.is_in_progress then { b1 with status := .draw } else b1)

/-- The boards produced by `initial_board` followed by any sequence of
the four mutators (each step succeeding, i.e. not panicking). -/
inductive ReachableBoard (z : Zobrist) (mg : MoveGen) : MyBoard → Prop where
  | initial (c : Color) : ReachableBoard z mg (MyBoard.initial_board z c)
  | move {b b' : MyBoard} (m : ChessMove) :
      ReachableBoard z mg b → b.apply_move z mg m = some b' → ReachableBoard z mg b'
  | move_unchecked {b b' : MyBoard} (m : ChessMove) :
      ReachableBoard z mg b → b.apply_move_unchecked z m = some b' → ReachableBoard z mg b'
  | bonus {b b' : MyBoard} (is_bonus : Bool) :
      ReachableBoard z mg b → b.apply_bonus z mg is_bonus = some b' → ReachableBoard z mg b'
  | bonus_unchecked {b b' : MyBoard} (is_bonus : Bool) :
      ReachableBoard z mg b → b.apply_bonus_unchecked z is_bonus = some b' → ReachableBoard z mg b'

/-- The side-to-move term of the Zobrist key: present exactly when Black
is to move. -/
def stm_term (z : Zobrist) (c : Color) : ℕ :=
  match c with
  | .black => z.color
  | .white => 0

/-- The Zobrist key recomputed from scratch: XOR over every occupied
(piece, square, color), the castling rights of both colors, and the
side-to-move term. -/
def hash_spec (z : Zobrist) (b : MyBoard) : ℕ :=
  piece_xor z b.pieces ^^^ z.castles (b.castle_rights .white) .white ^^^
    z.castles (b.castle_rights .black) .black ^^^ stm_term z b.side_to_move

/-! ## Table wrappers over `MyBoard` (position_table.rs) -/

/-- From position_table.rs: `Position::from_board`. -/
def Position.from_board (b : MyBoard) : Position := ⟨b.zobrist_hash⟩

/-- From position_table.rs: `insert`. -/
def PositionTable.insert {S : Type} (t : PositionTable S) (board : MyBoard)
    (depth : ℕ) (score : S) : PositionTable S :=
  t.insert_position (Position.from_board board) ⟨depth, board.dead_moves⟩ score

/-- From position_table.rs: `get` (the statistics updates of the
source do not influence the returned value and are omitted). -/
def PositionTable.get {S : Type} (t : PositionTable S) (board : MyBoard)
    (depth : ℕ) : Option S :=
  t.get_core (Position.from_board board) ⟨depth, board.dead_moves⟩

/-- From position_table.rs: `get_lenient`. -/
def PositionTable.get_lenient {S : Type} (t : PositionTable S) (board : MyBoard) : Option S :=
  t.get_lenient_core (Position.from_board board)

/-! ## Evaluators (evaluator.rs, proportion_count.rs, feature_eval.rs)

In the source snapshot these files exchange scores as floating-point
values; the exact arithmetic they perform on integers (piece counts and
values) is modelled over `ℚ` so that the computed ratios are exact. -/

/-- From evaluator.rs: `evaluate_terminal` — `none` for a game in
progress, otherwise the terminal value for White. -/
def evaluate_terminal (b : MyBoard) : Option ℚ :=
  match b.status with
  | .inProgress => none
  | .win .black => some 0
  | .win .white => some 1
  | .draw => some (1 / 2)

/-- From proportion_count.rs: the `piece_values` map built by
`ProportionCount::default` (P=1, N=3, B=3, R=5, Q=9, K=1). -/
def piece_value : Piece → ℕ
  | .pawn => 1
  | .knight => 3
  | .bishop => 3
  | .rook => 5
  | .queen => 9
  | .king => 1

/-- From proportion_count.rs: the value-summing loop over one side's
bitboard; the `let Some((piece, Color::...)) = board[sq] else panic!`
mismatch is `none`. -/
def sum_piece_values (b : MyBoard) (bb : BitBoard) (col : Color) : Option ℕ :=
  (List.finRange 64).foldr
    (fun sq acc =>
      match acc with
      | none => none
      | some n =>
        if bb sq then
          match b.pieces sq with
          | some (p, c) => if c = col then some (n + piece_value p) else none
          | none => none
        else some n)
    (some 0)

/-- From proportion_count.rs: `ProportionCount::evaluate` — terminal
boards take the terminal value; otherwise sum both sides' piece values
and return white / (white + black). -/
def proportion_count_evaluate (b : MyBoard) : Option ℚ :=
  if b.status.is_in_progress = false then evaluate_terminal b
  else
    match sum_piece_values b b.white_pieces .white, sum_piece_values b b.black_pieces .black with
    | some white_value, some black_value =>
      some ((white_value : ℚ) / ((white_value : ℚ) + (black_value : ℚ)))
    | _, _ => none

/-- From feature_eval.rs: `FeatureEval`.  Its in-progress branch is a
32-bit floating-point pipeline (feature extraction, dot product with the
weights, logistic sigmoid); floating point is not representable in this
embedding, so that branch is abstracted as the record field
`in_progress_score`.  The terminal branch (lines 108-111) is translated
below. -/
structure FeatureEval where
  in_progress_score : MyBoard → ℚ

/-- From feature_eval.rs: `FeatureEval::evaluate` — terminal boards take
`evaluate_terminal(board).unwrap()`, in-progress boards the sigmoid
pipeline. -/
def FeatureEval.evaluate (fe : FeatureEval) (b : MyBoard) : Option ℚ :=
  if b.status.is_in_progress = false then evaluate_terminal b
  else some (fe.in_progress_score b)

/-- The bitboards of a board agree with its piece array (the invariant
`set_piece` maintains). -/
def bitboards_consistent (b : MyBoard) : Prop :=
  ∀ sq : Square,
    (b.white_pieces sq = true ↔ ∃ p, b.pieces sq = some (p, .white)) ∧
    (b.black_pieces sq = true ↔ ∃ p, b.pieces sq = some (p, .black))

/-- The total material value of one side, stated as the spec states it:
the sum of the piece values of that side's pieces over the whole
board. -/
def material_total (b : MyBoard) (col : Color) : ℕ :=
  ((List.finRange 64).map
    (fun sq =>
      match b.pieces sq with
      | some (p, c) => if c = col then piece_value p else 0
      | none => 0)).sum

/-! ## Concrete instances used to exercise the theorems -/

/-- A one-state game whose only board is terminal: the simplest
instantiation of the board interface. -/
def unit_ops : BoardOps Unit Unit where
  status _ := .draw
  side_to_move _ := .white
  dead_moves _ := 0
  zobrist _ := 0
  all_moves _ := []
  next_boards _ _ _ := ((), ())
  evaluate _ := 100

/-- A two-state game: board `true` is in progress with one move leading
(for bonus and no-bonus alike) to the terminal board `false`. -/
def bool_ops : BoardOps Bool Unit where
  status b := if b then .inProgress else .draw
  side_to_move _ := .white
  dead_moves _ := 0
  zobrist b := if b then 0 else 1
  all_moves b := if b then [()] else []
  next_boards _ _ _ := (false, false)
  evaluate _ := 2 ^ 30

/-- A concrete Zobrist constant table. -/
def z0 : Zobrist where
  piece p sq c :=
    (match p with
     | .pawn => 1
     | .knight => 2
     | .bishop => 3
     | .rook => 4
     | .queen => 5
     | .king => 6) * 1024 + sq.val * 16 + (match c with | .white => 0 | .black => 1) + 7
  castles r c :=
    (match r with
     | .noRights => 1
     | .kingSide => 2
     | .queenSide => 3
     | .both => 4) * 131072 + (match c with | .white => 0 | .black => 65536)
  color := 262144

/-- A trivial move-table instantiation (no targets anywhere). -/
def mg0 : MoveGen where
  pawn_moves _ _ _ := BitBoard.emptyBB
  knight_moves _ := BitBoard.emptyBB
  bishop_moves _ _ := BitBoard.emptyBB
  rook_moves _ _ := BitBoard.emptyBB
  king_moves _ := BitBoard.emptyBB
  kingside_squares _ := BitBoard.emptyBB
  queenside_squares _ := BitBoard.emptyBB

/-- A concrete terminal board: White has won (Black's king is gone). -/
def won_board : MyBoard where
  pieces sq := if sq.val = 4 then some (.king, .white) else none
  side_to_move := .black
  castle_rights _ := .noRights
  dead_moves := 3
  status := .win .white
  awaiting_bonus := false
  white_pieces := fun sq => decide (sq.val = 4)
  black_pieces := BitBoard.emptyBB
  zobrist_hash := 42

/-- A concrete in-progress board with both kings and one extra white
queen (the S2 scenario of the spec). -/
def kings_queen_board : MyBoard where
  pieces sq :=
    if sq.val = 4 then some (.king, .white)
    else if sq.val = 3 then some (.queen, .white)
    else if sq.val = 60 then some (.king, .black)
    else none
  side_to_move := .white
  castle_rights _ := .noRights
  dead_moves := 0
  status := .inProgress
  awaiting_bonus := false
  white_pieces := fun sq => decide (sq.val = 4) || decide (sq.val = 3)
  black_pieces := fun sq => decide (sq.val = 60)
  zobrist_hash := 99

/-! ## Arithmetic facts about the chance constants -/

theorem smul_bonus (a : ℕ) : smul a bonus_chance = a / 4 := by
  have h : smul a bonus_chance = 536870912 * a / (536870912 * 4) := by
    unfold smul bonus_chance SCALE
    norm_num [Nat.mul_comm]
  rw [h, Nat.mul_div_mul_left _ _ (by norm_num)]

theorem smul_no_bonus (a : ℕ) : smul a no_bonus_chance = 3 * a / 4 := by
  have h : smul a no_bonus_chance = 536870912 * (3 * a) / (536870912 * 4) := by
    unfold smul no_bonus_chance SCALE
    ring_nf
  rw [h, Nat.mul_div_mul_left _ _ (by norm_num)]

theorem sdiv_bonus (a : ℕ) : sdiv a bonus_chance = 4 * a := by
  have h : sdiv a bonus_chance = 536870912 * (4 * a) / (536870912 * 1) := by
    unfold sdiv bonus_chance SCALE
    ring_nf
  rw [h, Nat.mul_div_mul_left _ _ (by norm_num)]
  omega

theorem sdiv_no_bonus (a : ℕ) : sdiv a no_bonus_chance = 4 * a / 3 := by
  have h : sdiv a no_bonus_chance = 536870912 * (4 * a) / (536870912 * 3) := by
    unfold sdiv no_bonus_chance SCALE
    ring_nf
  rw [h, Nat.mul_div_mul_left _ _ (by norm_num)]

theorem bonus_chance_eq : bonus_chance = 2 ^ 29 := by decide

theorem no_bonus_chance_eq : no_bonus_chance = 3 * 2 ^ 29 := by decide

theorem ONE_eq : ONE = 2 ^ 31 := by decide

/-! ## Characterizations of the Bounds predicates -/

theorem contains_iff (b : Bounds) (s : ℕ) :
    b.contains s = true ↔
      (∀ mn, b.min = some mn → mn < s) ∧ (∀ mx, b.max = some mx → s < mx) := by
  rcases hmin : b.min with _ | mn <;> rcases hmax : b.max with _ | mx <;>
    simp [Bounds.contains, Bounds.score_too_low, Bounds.score_too_high, hmin, hmax]

theorem valid_iff (b : Bounds) :
    b.valid = true ↔
      ∀ mx, b.max = some mx → mx ≤ ONE ∧ ∀ mn, b.min = some mn → mn < mx := by
  rcases hmin : b.min with _ | mn <;> rcases hmax : b.max with _ | mx <;>
    simp [Bounds.valid, hmin, hmax]

theorem expanded_min_none {b : Bounds} {a : ℕ} (hmin : b.min = none)
    (h0 : 0 < a) (h1 : a < ONE) :
    b.expanded a = some { min := none, max := expanded_max_side b.max a } := by
  unfold Bounds.expanded expanded_max_side
  rw [hmin]
  simp only [ZERO, h0, h1, and_self, not_true_eq_false, if_false]

theorem expanded_min_some {b : Bounds} {a mn : ℕ} (hmin : b.min = some mn)
    (h0 : 0 < a) (h1 : a < ONE) (hle : sdiv mn a ≤ ONE) :
    b.expanded a = some { min := some (sdiv mn a), max := expanded_max_side b.max a } := by
  unfold Bounds.expanded expanded_max_side
  rw [hmin]
  simp only [ZERO, h0, h1, and_self, not_true_eq_false, if_false, hle, if_true]

theorem expanded_min_panic {b : Bounds} {a mn : ℕ} (hmin : b.min = some mn)
    (hgt : ONE < sdiv mn a) :
    b.expanded a = none := by
  unfold Bounds.expanded
  rw [hmin]
  split
  · rfl
  · simp only [Nat.not_le.2 hgt, if_false]

theorem both_decreased_max_some {b : Bounds} {a mx : ℕ} (hmax : b.max = some mx)
    (hle : a ≤ mx) :
    b.both_decreased_by a =
      some { min := b.min.bind (fun mn => checked_sub mn a), max := some (mx - a) } := by
  unfold Bounds.both_decreased_by checked_sub
  rw [hmax]
  rcases hmin : b.min with _ | mn <;> simp [hle]

theorem both_decreased_max_none {b : Bounds} {a : ℕ} (hmax : b.max = none)
    (hle : a ≤ ONE) :
    b.both_decreased_by a =
      some { min := b.min.bind (fun mn => checked_sub mn a), max := some (ONE - a + DELTA) } := by
  unfold Bounds.both_decreased_by
  rw [hmax]
  rcases hmin : b.min with _ | mn <;> simp [hle, checked_sub]

theorem update_max_min_eq (b : Bounds) (s : ℕ) : (b.update_max s).min = b.min := by
  unfold Bounds.update_max
  rcases b.max with _ | mx
  · rfl
  · simp only []
    split <;> rfl

theorem update_min_max_eq (b : Bounds) (s : ℕ) : (b.update_min s).max = b.max := by
  unfold Bounds.update_min
  rcases b.min with _ | mn
  · rfl
  · simp only []
    split <;> rfl

theorem sdiv_strict_mono {mn mx a : ℕ} (h : mn < mx) (ha : 0 < a) (haS : a ≤ SCALE) :
    sdiv mn a < sdiv mx a := by
  unfold sdiv
  have h2 : mn * SCALE / a * a ≤ mn * SCALE := Nat.div_mul_le_self _ _
  have h4 : (mn * SCALE / a + 1) * a ≤ mx * SCALE := by
    have h5 : (mn + 1) * SCALE ≤ mx * SCALE := Nat.mul_le_mul_right _ h
    nlinarith
  have h6 : mn * SCALE / a + 1 ≤ mx * SCALE / a := (Nat.le_div_iff_mul_le ha).2 h4
  omega

/-! ## Claim C4: preservation of `valid` -/

/-- C4 counterexample: `valid()` is not preserved by every operation.
`both_decreased_by(ZERO)` applied to the (valid) widest bounds
manufactures the max bound `ONE - ZERO + DELTA = ONE + DELTA`, which
violates `valid()`'s `max <= ONE`. -/
theorem C4_counterexample :
    Bounds.widest.valid = true ∧
    Bounds.widest.both_decreased_by ZERO =
      some { min := none, max := some (ONE + DELTA) } ∧
    Bounds.valid { min := none, max := some (ONE + DELTA) } = false := by
  decide

/-- C4 amended: for a valid bounds value, `expanded(a)` (with 0 < a < 1)
and `min_decreased_by(a)` preserve `valid()` whenever they return
(`expanded` can also panic); `both_decreased_by(a)` preserves it
provided additionally `ZERO < a` and the min bound, when present, is at
most ONE; and `update_min(s)` / `update_max(s)` preserve it provided the
score is contained in the bounds and is at most ONE. -/
theorem C4_valid_preservation (b : Bounds) (a s : ℕ) (hv : b.valid = true) :
    (∀ b1, ZERO < a → a < ONE → b.expanded a = some b1 → b1.valid = true) ∧
    (b.min_decreased_by a).valid = true ∧
    (∀ b1, ZERO < a → (∀ mn, b.min = some mn → mn ≤ ONE) →
      b.both_decreased_by a = some b1 → b1.valid = true) ∧
    (b.contains s = true → s ≤ ONE →
      (b.update_min s).valid = true ∧ (b.update_max s).valid = true) := by
  obtain ⟨bmin, bmax⟩ := b
  rw [valid_iff] at hv
  simp only at hv
  have hZ : ZERO = 0 := rfl
  refine ⟨?_, ?_, ?_, ?_⟩
  · intro b1 h0 h1 hexp
    rw [hZ] at h0
    rw [valid_iff]
    rcases bmin with _ | mn
    · rw [expanded_min_none rfl h0 h1] at hexp
      injection hexp with hexp
      subst hexp
      intro mx hmx
      rcases bmax with _ | mx0 <;> simp only [expanded_max_side] at hmx
      · exact absurd hmx (by simp)
      · refine ⟨?_, by intro mn hmn; exact absurd hmn (by simp)⟩
        split at hmx
        · injection hmx with hmx
          omega
        · exact absurd hmx (by simp)
    · by_cases hle : sdiv mn a ≤ ONE
      · rw [expanded_min_some rfl h0 h1 hle] at hexp
        injection hexp with hexp
        subst hexp
        intro mx hmx
        rcases bmax with _ | mx0 <;> simp only [expanded_max_side] at hmx
        · exact absurd hmx (by simp)
        · split at hmx
          · injection hmx with hmx
            refine ⟨by omega, ?_⟩
            intro w hw
            injection hw with hw
            subst hw
            subst hmx
            exact sdiv_strict_mono ((hv mx0 rfl).2 mn rfl) h0
              (le_of_lt (by simpa [ONE] using h1))
          · exact absurd hmx (by simp)
      · rw [expanded_min_panic rfl (by omega)] at hexp
        exact absurd hexp (by simp)
  · rw [valid_iff]
    intro mx hmx
    simp only [Bounds.min_decreased_by] at hmx
    refine ⟨(hv mx hmx).1, ?_⟩
    intro mn hmn
    rcases bmin with _ | mn0 <;>
      simp only [Bounds.min_decreased_by, checked_sub] at hmn
    · exact absurd hmn (by simp)
    · split at hmn
      · injection hmn with hmn
        have := (hv mx hmx).2 mn0 rfl
        omega
      · exact absurd hmn (by simp)
  · intro b1 h0 hminR hboth
    rw [hZ] at h0
    rw [valid_iff]
    rcases bmax with _ | mx
    · have ha1 : a ≤ ONE := by
        by_contra hc
        push_neg at hc
        simp only [Bounds.both_decreased_by] at hboth
        rw [if_neg (by omega)] at hboth
        exact absurd hboth (by simp)
      rw [both_decreased_max_none rfl ha1] at hboth
      injection hboth with hboth
      subst hboth
      intro mx hmx
      injection hmx with hmx
      subst hmx
      refine ⟨by unfold DELTA; omega, ?_⟩
      intro mn hmn
      rcases bmin with _ | mn0 <;> simp only [Option.bind, checked_sub] at hmn
      · exact absurd hmn (by simp)
      · split at hmn
        · injection hmn with hmn
          have := hminR mn0 rfl
          unfold DELTA
          omega
        · exact absurd hmn (by simp)
    · by_cases hle : a ≤ mx
      · rw [both_decreased_max_some rfl hle] at hboth
        injection hboth with hboth
        subst hboth
        intro w hw
        injection hw with hw
        subst hw
        have hU := (hv mx rfl).1
        refine ⟨by omega, ?_⟩
        intro mn hmn
        rcases bmin with _ | mn0 <;> simp only [Option.bind, checked_sub] at hmn
        · exact absurd hmn (by simp)
        · split at hmn
          · injection hmn with hmn
            have := (hv mx rfl).2 mn0 rfl
            omega
          · exact absurd hmn (by simp)
      · simp only [Bounds.both_decreased_by, checked_sub] at hboth
        rw [if_neg hle] at hboth
        exact absurd hboth (by simp)
  · intro hc hs
    rw [contains_iff] at hc
    simp only at hc
    constructor
    · rw [valid_iff]
      intro mx hmx
      rcases bmin with _ | mn <;>
        simp only [Bounds.update_min] at hmx ⊢
      · refine ⟨(hv mx hmx).1, ?_⟩
        intro mn hmn
        injection hmn with hmn
        subst hmn
        exact hc.2 mx hmx
      · split at hmx <;> simp only at hmx ⊢
        · rename_i hlt
          refine ⟨(hv mx hmx).1, ?_⟩
          intro w hw
          rw [if_pos hlt] at hw
          injection hw with hw
          subst hw
          exact hc.2 mx hmx
        · rename_i hlt
          refine ⟨(hv mx hmx).1, fun w hw => ?_⟩
          rw [if_neg hlt] at hw
          injection hw with hw
          subst hw
          exact (hv mx hmx).2 mn rfl
    · rw [valid_iff]
      intro mx hmx
      rcases bmax with _ | mx0 <;>
        simp only [Bounds.update_max] at hmx
      · injection hmx with hmx
        subst hmx
        exact ⟨hs, fun mn hmn => hc.1 mn hmn⟩
      · split at hmx <;> injection hmx with hmx <;> subst hmx
        · exact ⟨le_trans (le_of_lt (hc.2 mx0 rfl)) (hv mx0 rfl).1,
            fun mn hmn => hc.1 mn (by rwa [update_max_min_eq] at hmn)⟩
        · exact ⟨(hv mx0 rfl).1,
            fun mn hmn => (hv mx0 rfl).2 mn (by rwa [update_max_min_eq] at hmn)⟩

/-- C4 witness at a concrete valid bounds value. -/
theorem C4_witness :
    (Bounds.min_decreased_by { min := some 100, max := some 1000 } 7).valid = true :=
  (C4_valid_preservation { min := some 100, max := some 1000 } 7 500 (by decide)).2.1

/-! ## Claim C5: semantics of `expanded` -/

/-- C5 counterexample: on the min side a quotient exceeding ONE does
not become absent — the operation panics (`expect` / the
`assert!(new_min <= ONE)`).  Dividing a min bound of 3/4 by 1/4 yields
3, which exceeds ONE, and `expanded` aborts instead of returning bounds
with an absent min. -/
theorem C5_counterexample :
    ZERO < bonus_chance ∧ bonus_chance < ONE ∧
    ONE < sdiv (3 * 2 ^ 29) bonus_chance ∧
    Bounds.expanded { min := some (3 * 2 ^ 29), max := none } bonus_chance = none ∧
    Bounds.expanded { min := some (3 * 2 ^ 29), max := none } bonus_chance ≠
      some { min := none, max := none } := by
  refine ⟨by decide, by decide, by decide, ?_, ?_⟩
  · exact expanded_min_panic rfl (by decide)
  · rw [expanded_min_panic rfl (by decide)]
    simp

/-- C5 amended: for 0 < a < 1, `expanded(a)` divides both bounds by a
(truncating fixed-point division); a max bound whose quotient exceeds
ONE becomes absent, while a min bound whose quotient exceeds ONE makes
the operation panic (it does not become absent).  When the operation
returns, both sides are the quotients, with the max side filtered. -/
theorem C5_expanded_semantics (b : Bounds) (a : ℕ)
    (h0 : ZERO < a) (h1 : a < ONE) :
    ((∀ mn, b.min = some mn → sdiv mn a ≤ ONE) →
      b.expanded a = some
        { min := b.min.map (fun mn => sdiv mn a),
          max := expanded_max_side b.max a }) ∧
    (∀ mn, b.min = some mn → ONE < sdiv mn a → b.expanded a = none) ∧
    (∀ mx, b.max = some mx → ONE < sdiv mx a → expanded_max_side b.max a = none) ∧
    (∀ mx, b.max = some mx → sdiv mx a ≤ ONE →
      expanded_max_side b.max a = some (sdiv mx a)) := by
  rw [show ZERO = 0 from rfl] at h0
  refine ⟨?_, ?_, ?_, ?_⟩
  · intro hmn
    rcases hmin : b.min with _ | mn
    · simpa using expanded_min_none hmin h0 h1
    · simpa using expanded_min_some hmin h0 h1 (hmn mn hmin)
  · intro mn hmin hgt
    exact expanded_min_panic hmin hgt
  · intro mx hmax hgt
    simp only [expanded_max_side, hmax]
    rw [if_neg (by omega)]
  · intro mx hmax hle
    simp only [expanded_max_side, hmax]
    rw [if_pos hle]

/-- C5 witness at concrete bounds (min 1/4, max 1/2, divided by 3/4). -/
theorem C5_witness :
    Bounds.expanded { min := some (2 ^ 29), max := some (2 ^ 30) } no_bonus_chance =
      some { min := some (sdiv (2 ^ 29) no_bonus_chance),
             max := some (sdiv (2 ^ 30) no_bonus_chance) } := by
  have h := (C5_expanded_semantics { min := some (2 ^ 29), max := some (2 ^ 30) }
    no_bonus_chance (by decide) (by decide)).1 (by intro mn hmn; injection hmn with hmn; subst hmn; decide)
  rw [h]
  have h2 := (C5_expanded_semantics { min := some (2 ^ 29), max := some (2 ^ 30) }
    no_bonus_chance (by decide) (by decide)).2.2.2 (2 ^ 30) rfl (by decide)
  rw [show ({ min := some (2 ^ 29), max := some (2 ^ 30) } : Bounds).min.map
    (fun mn => sdiv mn no_bonus_chance) = some (sdiv (2 ^ 29) no_bonus_chance) from rfl, h2]

/-! ## Claim C1: the chance-node monotonicity law -/

/-- C1 counterexample: with the (valid) window (unbounded, max = DELTA)
and the scores nb_score = DELTA, b_score = ZERO (both in [0,1]), the
fixed-point composite b_score*p + nb_score*q = 0 is inside the window,
but nb_score is NOT contained in the no-bonus window
`min_decreased_by(p).expanded(q)` = (unbounded, max = DELTA): the
truncating division leaves the max at DELTA and the exclusive check
rejects nb_score = DELTA. -/
theorem C1_counterexample :
    Bounds.valid { min := none, max := some DELTA } = true ∧
    DELTA ≤ ONE ∧ ZERO ≤ ONE ∧
    Bounds.contains { min := none, max := some DELTA }
      (smul ZERO bonus_chance + smul DELTA no_bonus_chance) = true ∧
    (Bounds.min_decreased_by { min := none, max := some DELTA } bonus_chance).expanded
      no_bonus_chance = some { min := none, max := some DELTA } ∧
    Bounds.contains { min := none, max := some DELTA } DELTA = false := by
  decide

/-- The no-bonus window of the search contains (strictly above its min,
and up to its max inclusively) any nb_score whose composite with some
b_score in [0,1] lies in the parent window. -/
theorem C1_nbw_lemma (bmin bmax : Option ℕ) (nb_score b_score : ℕ)
    (hminR : ∀ mn, bmin = some mn → mn ≤ ONE)
    (hb : b_score ≤ ONE)
    (hc1 : ∀ mn, bmin = some mn → mn < b_score / 4 + 3 * nb_score / 4)
    (hc2 : ∀ mx, bmax = some mx → b_score / 4 + 3 * nb_score / 4 < mx) :
    ∃ nbw, (Bounds.min_decreased_by ⟨bmin, bmax⟩ bonus_chance).expanded no_bonus_chance
        = some nbw ∧
      (∀ mn, nbw.min = some mn → mn < nb_score) ∧
      (∀ mx, nbw.max = some mx → nb_score ≤ mx) := by
  have hONE : ONE = 2147483648 := by norm_num [ONE, SCALE]
  rcases bmin with _ | mn
  · -- min side absent stays absent
    have hmd : (Bounds.min_decreased_by ⟨none, bmax⟩ bonus_chance) = ⟨none, bmax⟩ := rfl
    rw [hmd]
    refine ⟨_, expanded_min_none rfl (by decide) (by decide), ?_, ?_⟩
    · intro mn hmn
      exact absurd hmn (by simp)
    · intro mx hmx
      rcases bmax with _ | mx0 <;> simp only [expanded_max_side] at hmx
      · exact absurd hmx (by simp)
      · split at hmx
        · injection hmx with hmx
          subst hmx
          rw [sdiv_no_bonus]
          have := hc2 mx0 rfl
          omega
        · exact absurd hmx (by simp)
  · -- min side present
    have hmd : (Bounds.min_decreased_by ⟨some mn, bmax⟩ bonus_chance) =
        ⟨checked_sub mn bonus_chance, bmax⟩ := rfl
    rw [hmd]
    have hpe : bonus_chance = 536870912 := by norm_num [bonus_chance, SCALE]
    have hmnR := hminR mn rfl
    have hmc := hc1 mn rfl
    unfold checked_sub
    by_cases hcs : bonus_chance ≤ mn
    · rw [if_pos hcs]
      have hle : sdiv (mn - bonus_chance) no_bonus_chance ≤ ONE := by
        rw [sdiv_no_bonus]
        omega
      refine ⟨_, expanded_min_some rfl (by decide) (by decide) hle, ?_, ?_⟩
      · intro w hw
        injection hw with hw
        subst hw
        rw [sdiv_no_bonus]
        omega
      · intro mx hmx
        rcases bmax with _ | mx0 <;> simp only [expanded_max_side] at hmx
        · exact absurd hmx (by simp)
        · split at hmx
          · injection hmx with hmx
            subst hmx
            rw [sdiv_no_bonus]
            have := hc2 mx0 rfl
            omega
          · exact absurd hmx (by simp)
    · rw [if_neg hcs]
      refine ⟨_, expanded_min_none rfl (by decide) (by decide), ?_, ?_⟩
      · intro w hw
        exact absurd hw (by simp)
      · intro mx hmx
        rcases bmax with _ | mx0 <;> simp only [expanded_max_side] at hmx
        · exact absurd hmx (by simp)
        · split at hmx
          · injection hmx with hmx
            subst hmx
            rw [sdiv_no_bonus]
            have := hc2 mx0 rfl
            omega
          · exact absurd hmx (by simp)

/-- The bonus window of the search contains any b_score in [0,1] whose
composite with nb_score lies in the parent window. -/
theorem C1_bw_lemma (bmin bmax : Option ℕ) (nb_score b_score : ℕ)
    (hnb : nb_score ≤ ONE) (hb : b_score ≤ ONE)
    (hc1 : ∀ mn, bmin = some mn → mn < b_score / 4 + 3 * nb_score / 4)
    (hc2 : ∀ mx, bmax = some mx → b_score / 4 + 3 * nb_score / 4 < mx) :
    ∃ bw, (Bounds.both_decreased_by ⟨bmin, bmax⟩ (smul nb_score no_bonus_chance)).bind
        (fun x => x.expanded bonus_chance) = some bw ∧
      bw.contains b_score = true := by
  have hONE : ONE = 2147483648 := by norm_num [ONE, SCALE]
  have hpe : bonus_chance = 536870912 := by norm_num [bonus_chance, SCALE]
  have hqm : smul nb_score no_bonus_chance = 3 * nb_score / 4 := smul_no_bonus _
  rw [hqm]
  have hDE : DELTA = 1 := rfl
  -- the intermediate bounds after both_decreased_by
  have hmid : ∃ mid : Bounds,
      Bounds.both_decreased_by ⟨bmin, bmax⟩ (3 * nb_score / 4) = some mid ∧
      mid.min = bmin.bind (fun mn => checked_sub mn (3 * nb_score / 4)) ∧
      ∃ mmx, mid.max = some mmx ∧
        (∀ mx, bmax = some mx → mmx = mx - 3 * nb_score / 4) ∧
        (bmax = none → 2 ^ 29 < mmx) := by
    rcases bmax with _ | mx
    · refine ⟨_, both_decreased_max_none rfl (by omega), rfl, ?_⟩
      refine ⟨_, rfl, ?_, ?_⟩
      · intro mx hmx
        exact absurd hmx (by simp)
      · intro _
        omega
    · have hle : 3 * nb_score / 4 ≤ mx := by
        have := hc2 mx rfl
        omega
      refine ⟨_, both_decreased_max_some rfl hle, rfl, ?_⟩
      refine ⟨_, rfl, ?_, ?_⟩
      · intro mx2 hmx2
        injection hmx2 with hmx2
        subst hmx2
        rfl
      · intro h
        exact absurd h (by simp)
  obtain ⟨mid, hmid_eq, hmid_min, mmx, hmid_max, hmmx_some, hmmx_none⟩ := hmid
  rw [hmid_eq]
  simp only [Option.bind]
  -- now expand the intermediate bounds by p
  obtain ⟨midmin, midmax⟩ := mid
  simp only at hmid_min hmid_max
  subst hmid_min hmid_max
  rcases hbind : bmin.bind (fun mn => checked_sub mn (3 * nb_score / 4)) with _ | w
  · refine ⟨_, expanded_min_none rfl (by decide) (by decide), ?_⟩
    rw [contains_iff]
    refine ⟨by intro mn hmn; exact absurd hmn (by simp), ?_⟩
    intro mx hmx
    simp only [expanded_max_side] at hmx
    split at hmx
    · injection hmx with hmx
      subst hmx
      rw [sdiv_bonus]
      rcases bmax with _ | mx0
      · have := hmmx_none rfl
        omega
      · have h1 := hmmx_some mx0 rfl
        have h2 := hc2 mx0 rfl
        omega
    · exact absurd hmx (by simp)
  · -- the min side of the intermediate bounds is present
    have hw : ∃ mn, bmin = some mn ∧ 3 * nb_score / 4 ≤ mn ∧ w = mn - 3 * nb_score / 4 := by
      rcases bmin with _ | mn
      · exact absurd hbind (by simp)
      · simp only [Option.bind, checked_sub] at hbind
        split at hbind
        · injection hbind with hbind
          exact ⟨mn, rfl, by assumption, hbind.symm⟩
        · exact absurd hbind (by simp)
    obtain ⟨mn, hmn_eq, hmn_ge, hw_eq⟩ := hw
    have hmn_lt := hc1 mn hmn_eq
    have hle : sdiv w bonus_chance ≤ ONE := by
      rw [sdiv_bonus]
      omega
    refine ⟨_, expanded_min_some rfl (by decide) (by decide) hle, ?_⟩
    rw [contains_iff]
    constructor
    · intro v hv
      injection hv with hv
      subst hv
      rw [sdiv_bonus]
      omega
    · intro mx hmx
      simp only [expanded_max_side] at hmx
      split at hmx
      · injection hmx with hmx
        subst hmx
        rw [sdiv_bonus]
        rcases bmax with _ | mx0
        · have := hmmx_none rfl
          omega
        · have h1 := hmmx_some mx0 rfl
          have h2 := hc2 mx0 rfl
          omega
      · exact absurd hmx (by simp)

/-- C1 amended: under the fixed-point (truncating) score arithmetic the
law holds with the no-bonus window's max side weakened from exclusive to
inclusive: if the composite b_score*p + nb_score*q is contained in the
valid parent window B (whose present sides are in [0,1], and with the
scores in [0,1]), then nb_score lies strictly above the min of
`B.min_decreased_by(p).expanded(q)` and at most DELTA beyond its
exclusive max (nb_score <= max), and b_score is contained in
`B.both_decreased_by(nb_score*q).expanded(p)` (both windows being
defined, i.e. panic-free). -/
theorem C1_chance_window_law (b : Bounds) (nb_score b_score : ℕ)
    (hv : b.valid = true)
    (hminR : ∀ mn, b.min = some mn → mn ≤ ONE)
    (hnb : nb_score ≤ ONE) (hb : b_score ≤ ONE)
    (hc : b.contains (smul b_score bonus_chance + smul nb_score no_bonus_chance) = true) :
    ∃ nbw bw,
      (b.min_decreased_by bonus_chance).expanded no_bonus_chance = some nbw ∧
      (b.both_decreased_by (smul nb_score no_bonus_chance)).bind
        (fun x => x.expanded bonus_chance) = some bw ∧
      (∀ mn, nbw.min = some mn → mn < nb_score) ∧
      (∀ mx, nbw.max = some mx → nb_score ≤ mx) ∧
      bw.contains b_score = true := by
  obtain ⟨bmin, bmax⟩ := b
  rw [contains_iff] at hc
  rw [smul_bonus, smul_no_bonus] at hc
  simp only at hc hminR
  obtain ⟨nbw, hnbw, hnbw_min, hnbw_max⟩ :=
    C1_nbw_lemma bmin bmax nb_score b_score hminR hb hc.1 hc.2
  obtain ⟨bw, hbw, hbw_c⟩ :=
    C1_bw_lemma bmin bmax nb_score b_score hnb hb hc.1 hc.2
  exact ⟨nbw, bw, hnbw, hbw, hnbw_min, hnbw_max, hbw_c⟩

/-- C1 witness at a concrete window and concrete scores. -/
theorem C1_witness :
    ∃ nbw bw,
      (Bounds.min_decreased_by { min := some (2 ^ 29), max := some (2 ^ 31) }
        bonus_chance).expanded no_bonus_chance = some nbw ∧
      (Bounds.both_decreased_by { min := some (2 ^ 29), max := some (2 ^ 31) }
        (smul (2 ^ 30) no_bonus_chance)).bind
        (fun x => x.expanded bonus_chance) = some bw ∧
      (∀ mn, nbw.min = some mn → mn < 2 ^ 30) ∧
      (∀ mx, nbw.max = some mx → 2 ^ 30 ≤ mx) ∧
      bw.contains (2 ^ 30) = true :=
  C1_chance_window_law { min := some (2 ^ 29), max := some (2 ^ 31) } (2 ^ 30) (2 ^ 30)
    (by decide)
    (by intro mn hmn; injection hmn with hmn; subst hmn; decide)
    (by decide) (by decide) (by decide)

/-! ## Claim C3: table round-trip -/

/-- C3: starting from a table whose slot for the board's hash is empty,
`insert(board, depth, payload)` followed by `get(board, depth')` returns
the payload iff `depth' <= depth`; for the same board the dead-move
counters coincide, so the trust condition `better_than` reduces to
exactly that depth comparison; and `get_lenient` returns the payload for
any board with the stored key, regardless of depth and dead moves. -/
theorem C3_table_round_trip {S : Type} (t : PositionTable S) (board : MyBoard)
    (depth depth' : ℕ) (payload : S)
    (hempty : t (Position.from_board board).as_index = none) :
    ((Parameters.better_than ⟨depth, board.dead_moves⟩ ⟨depth', board.dead_moves⟩) = true ↔
        depth' ≤ depth) ∧
    ((t.insert board depth payload).get board depth' = some payload ↔ depth' ≤ depth) ∧
    (∀ board' : MyBoard, board'.zobrist_hash = board.zobrist_hash →
      (t.insert board depth payload).get_lenient board' = some payload) := by
  have hslot : (t.insert board depth payload) (Position.from_board board).as_index =
      some { position := Position.from_board board,
             parameters := ⟨depth, board.dead_moves⟩, score := payload } := by
    unfold PositionTable.insert PositionTable.insert_position
    simp only [hempty, if_true]
  have hbt : ∀ d d' dm : ℕ,
      (Parameters.better_than ⟨d, dm⟩ ⟨d', dm⟩) = true ↔ d' ≤ d := by
    intro d d' dm
    unfold Parameters.better_than
    simp
  refine ⟨hbt depth depth' board.dead_moves, ?_, ?_⟩
  · have hget : (t.insert board depth payload).get board depth' =
        if depth' ≤ depth then some payload else none := by
      unfold PositionTable.get PositionTable.get_core
      simp only [hslot]
      rw [if_neg (by simp)]
      by_cases h : depth' ≤ depth
      · rw [if_pos ((hbt depth depth' board.dead_moves).2 h), if_pos h]
      · rw [if_neg (fun hcon => h ((hbt depth depth' board.dead_moves).1 hcon)), if_neg h]
    rw [hget]
    by_cases h : depth' ≤ depth
    · simp [h]
    · simp [h]
  · intro board' hhash
    have hpos : Position.from_board board' = Position.from_board board := by
      unfold Position.from_board
      rw [hhash]
    unfold PositionTable.get_lenient PositionTable.get_lenient_core
    simp only [hpos, hslot]
    simp

/-- C3 witness: a concrete round trip through the table. -/
theorem C3_witness :
    ((PositionTable.empty ℕ).insert won_board 5 77).get won_board 3 = some 77 :=
  ((C3_table_round_trip (PositionTable.empty ℕ) won_board 5 3 77 rfl).2.1).2 (by omega)

/-! ## Claim C6: evaluator terminal correctness -/

/-- C6: on every terminal board both supported evaluators return
exactly ONE (as a score: the rational 1) for a White win, ZERO for a
Black win, and 0.5 for a draw. -/
theorem C6_terminal_evaluation (b : MyBoard) (fe : FeatureEval) :
    (b.status = .win .white →
      proportion_count_evaluate b = some 1 ∧ fe.evaluate b = some 1) ∧
    (b.status = .win .black →
      proportion_count_evaluate b = some 0 ∧ fe.evaluate b = some 0) ∧
    (b.status = .draw →
      proportion_count_evaluate b = some (1 / 2) ∧ fe.evaluate b = some (1 / 2)) := by
  refine ⟨?_, ?_, ?_⟩ <;> intro hs <;>
    constructor <;>
    simp [proportion_count_evaluate, FeatureEval.evaluate, evaluate_terminal, hs,
      Status.is_in_progress]

/-- C6 witness on a concrete won board. -/
theorem C6_witness :
    proportion_count_evaluate won_board = some 1 ∧
    (FeatureEval.mk (fun _ => 0)).evaluate won_board = some 1 :=
  (C6_terminal_evaluation won_board (FeatureEval.mk (fun _ => 0))).1 rfl

/-! ## Claim C7: the material-proportion evaluator -/

theorem sum_piece_values_eq (b : MyBoard) (col : Color) (bb : BitBoard)
    (hcons : ∀ sq : Square, bb sq = true ↔ ∃ p, b.pieces sq = some (p, col)) :
    sum_piece_values b bb col = some (material_total b col) := by
  unfold sum_piece_values material_total
  induction (List.finRange 64) with
  | nil => simp
  | cons sq rest ih =>
    simp only [List.foldr_cons, List.map_cons, List.sum_cons, ih]
    by_cases hbb : bb sq = true
    · obtain ⟨p, hp⟩ := (hcons sq).1 hbb
      rw [if_pos hbb, hp]
      simp [Nat.add_comm]
    · rw [if_neg hbb]
      rcases hpieces : b.pieces sq with _ | ⟨p, c⟩
      · simp [hpieces]
      · rcases hc : c with _ | _ <;> rcases hcol : col with _ | _ <;>
          subst hc <;> subst hcol <;> simp [hpieces] <;>
          exact absurd ((hcons sq).2 ⟨p, hpieces⟩) hbb

/-- C7: on an in-progress board with consistent bitboards, the material
evaluator returns white_total / (white_total + black_total), the piece
values being P=1, N=3, B=3, R=5, Q=9, K=1. -/
theorem C7_material_proportion (b : MyBoard)
    (hs : b.status = .inProgress)
    (hcons : bitboards_consistent b) :
    proportion_count_evaluate b =
      some ((material_total b .white : ℚ) /
        ((material_total b .white : ℚ) + (material_total b .black : ℚ))) := by
  unfold proportion_count_evaluate
  rw [hs]
  rw [sum_piece_values_eq b .white b.white_pieces (fun sq => (hcons sq).1),
    sum_piece_values_eq b .black b.black_pieces (fun sq => (hcons sq).2)]
  simp [Status.is_in_progress]

/-- C7 witness: the kings-plus-white-queen board evaluates to 10/11. -/
theorem C7_witness :
    proportion_count_evaluate kings_queen_board = some (10 / 11) := by
  have h1 : material_total kings_queen_board .white = 10 := by decide
  have h2 : material_total kings_queen_board .black = 1 := by decide
  rw [C7_material_proportion kings_queen_board rfl
    (by unfold bitboards_consistent; decide), h1, h2]
  norm_num

/-! ## Structural facts about the search (claims C2, C8, C10) -/

theorem score_too_low_min_present {b : Bounds} {s : ℕ}
    (h : b.score_too_low s = true) : b.min ≠ none := by
  unfold Bounds.score_too_low at h
  rcases hmin : b.min with _ | mn
  · rw [hmin] at h
    exact absurd h (by simp)
  · simp [hmin]

theorem score_too_high_max_present {b : Bounds} {s : ℕ}
    (h : b.score_too_high s = true) : b.max ≠ none := by
  unfold Bounds.score_too_high at h
  rcases hmax : b.max with _ | mx
  · rw [hmax] at h
    exact absurd h (by simp)
  · simp [hmax]

theorem info_too_low_min_present {b : Bounds} {si : ScoreInfo}
    (h : b.info_too_low si = true) : b.min ≠ none := by
  unfold Bounds.info_too_low at h
  rcases hmin : b.min with _ | mn
  · rw [hmin] at h
    exact absurd h (by simp)
  · simp [hmin]

theorem contains_of_not_too {b : Bounds} {s : ℕ}
    (h1 : b.score_too_low s = false) (h2 : b.score_too_high s = false) :
    b.contains s = true := by
  unfold Bounds.contains
  rw [h1, h2]
  rfl

theorem actual_score_eq {si : ScoreInfo} {s : ℕ}
    (h : si.actual_score = some s) : si.min = s ∧ si.max = s := by
  unfold ScoreInfo.actual_score at h
  split at h
  · injection h with h
    subst h
    constructor
    · rfl
    · omega
  · exact absurd h (by simp)

theorem update_table_low_min {M : Type} {t t' : PositionTable ScoreInfo}
    {pos : Position} {dm depth : ℕ} {bounds : Bounds}
    (h : update_table_for_result (M := M) t pos dm depth bounds .low = some t') :
    bounds.min ≠ none := by
  unfold update_table_for_result at h
  rcases hmin : bounds.min with _ | mn
  · rw [hmin] at h
    exact absurd h (by simp)
  · simp [hmin]

theorem update_table_high_max {M : Type} {t t' : PositionTable ScoreInfo}
    {pos : Position} {dm depth : ℕ} {bounds : Bounds}
    (h : update_table_for_result (M := M) t pos dm depth bounds .high = some t') :
    bounds.max ≠ none := by
  unfold update_table_for_result at h
  rcases hmax : bounds.max with _ | mx
  · rw [hmax] at h
    exact absurd h (by simp)
  · simp [hmax]

theorem table_check_spec {M : Type} {lookahead depth : ℕ} {bounds : Bounds}
    {si? : Option ScoreInfo} {r : SearchResult M}
    (h : table_check lookahead depth bounds si? = .ret r) :
    (∀ s mv, r = .result s mv → bounds.contains s = true ∧ mv = none) ∧
    (r = .low → bounds.min ≠ none) ∧
    (r = .high → bounds.max ≠ none) := by
  rcases si? with _ | si
  · simp [table_check] at h
  · simp only [table_check] at h
    split at h
    · rename_i hlow
      injection h with h
      subst h
      refine ⟨?_, ?_, ?_⟩
      · intro s mv heq
        exact absurd heq (by simp)
      · intro _
        exact info_too_low_min_present hlow
      · intro heq
        exact absurd heq (by simp)
    · rename_i hlow
      split at h
      · rename_i hhigh
        split at h
        · exact absurd h (by simp)
        · rename_i hmax
          injection h with h
          subst h
          refine ⟨?_, ?_, ?_⟩
          · intro s mv heq
            exact absurd heq (by simp)
          · intro heq
            exact absurd heq (by simp)
          · intro _
            exact hmax
      · rename_i hhigh
        rcases hsc : si.actual_score with _ | s0 <;> simp only [hsc] at h
        · exact absurd h (by simp)
        · split at h
          · injection h with h
            subst h
            obtain ⟨hmn, hmx⟩ := actual_score_eq hsc
            refine ⟨?_, ?_, ?_⟩
            · intro s mv heq
              injection heq with h1 h2
              subst h1
              subst h2
              refine ⟨?_, rfl⟩
              apply contains_of_not_too
              · unfold Bounds.score_too_low
                unfold Bounds.info_too_low at hlow
                rcases hminb : bounds.min with _ | mn
                · rfl
                · rw [hminb] at hlow
                  simp only [Bool.not_eq_true] at hlow
                  simp only [decide_eq_false_iff_not] at hlow ⊢
                  omega
              · unfold Bounds.score_too_high
                unfold Bounds.info_too_high at hhigh
                rcases hmaxb : bounds.max with _ | mx0
                · rfl
                · rw [hmaxb] at hhigh
                  simp only [Bool.not_eq_true] at hhigh
                  simp only [decide_eq_false_iff_not] at hhigh ⊢
                  omega
            · intro heq
              exact absurd heq (by simp)
            · intro heq
              exact absurd heq (by simp)
          · exact absurd h (by simp)

theorem leaf_step_spec {M : Type} {ev : ℕ} {bounds : Bounds} {pos : Position}
    {dm depth : ℕ} {table : PositionTable ScoreInfo} :
    ((leaf_step (M := M) ev bounds pos dm depth table).1 = .low → bounds.min ≠ none) ∧
    ((leaf_step (M := M) ev bounds pos dm depth table).1 = .high → bounds.max ≠ none) ∧
    (∀ s mv, (leaf_step (M := M) ev bounds pos dm depth table).1 = .result s mv →
      bounds.contains s = true ∧ mv = none) := by
  unfold leaf_step
  rcases hlow : bounds.score_too_low ev with _ | _
  · rcases hhigh : bounds.score_too_high ev with _ | _
    · simp only [Bool.false_eq_true, if_false]
      refine ⟨?_, ?_, ?_⟩
      · intro heq
        exact absurd heq (by simp)
      · intro heq
        exact absurd heq (by simp)
      · intro s mv heq
        injection heq with h1 h2
        subst h1
        subst h2
        exact ⟨contains_of_not_too hlow hhigh, rfl⟩
    · simp only [Bool.false_eq_true, if_false, if_true]
      refine ⟨?_, ?_, ?_⟩
      · intro heq
        exact absurd heq (by simp)
      · intro _
        exact score_too_high_max_present hhigh
      · intro s mv heq
        exact absurd heq (by simp)
  · simp only [if_true]
    refine ⟨?_, ?_, ?_⟩
    · intro _
      exact score_too_low_min_present hlow
    · intro heq
      exact absurd heq (by simp)
    · intro s mv heq
      exact absurd heq (by simp)

theorem contains_update_min {b : Bounds} {v s : ℕ}
    (h : (b.update_min v).contains s = true) : b.contains s = true := by
  rw [contains_iff] at h ⊢
  constructor
  · intro mn hmn
    rcases hmin : b.min with _ | mn0
    · exact absurd (hmin ▸ hmn) (by simp)
    · rw [hmin] at hmn
      injection hmn with hmn
      have hthis := h.1
      unfold Bounds.update_min at hthis
      simp only [hmin] at hthis
      by_cases hlt : mn0 < v
      · have h2 := hthis v (by rw [if_pos hlt])
        omega
      · have h2 := hthis mn0 (by rw [if_neg hlt]; exact hmin)
        omega
  · intro mx hmx
    exact h.2 mx (by rw [update_min_max_eq]; exact hmx)

theorem contains_update_max {b : Bounds} {v s : ℕ}
    (h : (b.update_max v).contains s = true) : b.contains s = true := by
  rw [contains_iff] at h ⊢
  constructor
  · intro mn hmn
    exact h.1 mn (by rw [update_max_min_eq]; exact hmn)
  · intro mx hmx
    rcases hmax : b.max with _ | mx0
    · exact absurd (hmax ▸ hmx) (by simp)
    · rw [hmax] at hmx
      injection hmx with hmx
      have hthis := h.2
      unfold Bounds.update_max at hthis
      simp only [hmax] at hthis
      by_cases hlt : v < mx0
      · have h2 := hthis v (by rw [if_pos hlt])
        omega
      · have h2 := hthis mx0 (by rw [if_neg hlt]; exact hmax)
        omega

theorem update_min_min_of_false (b : Bounds) (v : ℕ) (h : b.min = none) :
    (b.update_max v).min = none := by
  rw [update_max_min_eq]
  exact h

theorem bool_if_false {α : Sort u} (a b : α) : (if false = true then a else b) = b := rfl

theorem bool_if_true {α : Sort u} (a b : α) : (if true = true then a else b) = a := rfl

/-- The move loop keeps every returned score inside the loop-entry
window, returns moves only from the supplied list, and returns Low/High
only with the corresponding entry bound present.  `recurse` is
arbitrary: no property of the recursive calls is needed. -/
theorem search_loop_spec {B M : Type}
    (recurse : B → Bounds → PositionTable ScoreInfo → Option (SearchResult M × PositionTable ScoreInfo))
    (ops : BoardOps B M) (board : B) (depth : ℕ) (is_maxing : Bool)
    (pos : Position) (dm : ℕ) (bounds0 : Bounds) (moves0 : List M) :
    ∀ (moves : List M) (bounds : Bounds) (best : Option (ℕ × M))
      (table : PositionTable ScoreInfo) (res : SearchResult M) (t' : PositionTable ScoreInfo),
      search_loop recurse ops board depth is_maxing pos dm moves bounds best table
        = some (res, t') →
      (∀ s, bounds.contains s = true → bounds0.contains s = true) →
      (is_maxing = false → bounds.min = bounds0.min) →
      (is_maxing = true → bounds.max = bounds0.max) →
      (best = none → bounds = bounds0) →
      (∀ s m, best = some (s, m) → bounds0.contains s = true ∧ m ∈ moves0) →
      (∀ m, m ∈ moves → m ∈ moves0) →
      (∀ s mv, res = .result s mv → bounds0.contains s = true ∧
        ∀ m, mv = some m → m ∈ moves0) ∧
      (res = .low → bounds0.min ≠ none) ∧
      (res = .high → bounds0.max ≠ none) := by
  cases is_maxing
  all_goals intro moves
  all_goals induction moves with
  | nil =>
    intro bounds best table res t' h hsub hminS hmaxS hbest0 hbest hmoves
    rcases hbc : best with _ | ⟨bs, bm⟩ <;>
      simp only [search_loop, hbc, bool_if_false, bool_if_true, Bool.false_eq_true, Bool.true_eq_false, if_true, if_false] at h
    · have hbb := hbest0 hbc
      subst hbb
      first
        | (rcases hut : update_table_for_result (M := M) table pos dm depth bounds .high
              with _ | t2 <;>
            simp only [hut, Option.some.injEq, Prod.mk.injEq] at h
           · exact absurd h (by simp)
           · obtain ⟨h1, h2⟩ := h
             subst h1
             refine ⟨?_, ?_, ?_⟩
             · intro s mv heq
               exact absurd heq (by simp)
             · intro heq
               exact absurd heq (by simp)
             · intro _
               exact update_table_high_max hut)
        | (rcases hut : update_table_for_result (M := M) table pos dm depth bounds .low
              with _ | t2 <;>
            simp only [hut, Option.some.injEq, Prod.mk.injEq] at h
           · exact absurd h (by simp)
           · obtain ⟨h1, h2⟩ := h
             subst h1
             refine ⟨?_, ?_, ?_⟩
             · intro s mv heq
               exact absurd heq (by simp)
             · intro _
               exact update_table_low_min hut
             · intro heq
               exact absurd heq (by simp))
    · rcases hut : update_table_for_result (M := M) table pos dm depth bounds
          (.result bs (some bm)) with _ | t2 <;>
        simp only [hut, Option.some.injEq, Prod.mk.injEq] at h
      · exact absurd h (by simp)
      · obtain ⟨h1, h2⟩ := h
        subst h1
        refine ⟨?_, ?_, ?_⟩
        · intro s mv heq
          injection heq with hq1 hq2
          subst hq1
          subst hq2
          obtain ⟨hc, hm⟩ := hbest bs bm hbc
          refine ⟨hc, ?_⟩
          intro m hm2
          injection hm2 with hm2
          subst hm2
          exact hm
        · intro heq
          exact absurd heq (by simp)
        · intro heq
          exact absurd heq (by simp)
  | cons mv rest ih =>
    intro bounds best table res t' h hsub hminS hmaxS hbest0 hbest hmoves
    simp only [search_loop] at h
    rcases hms : move_step recurse ops board depth mv bounds table with _ | ⟨r, t1⟩
    · rw [hms] at h
      exact absurd h (by simp)
    · rcases r with ⟨score, rmv⟩ | _ | _ <;>
        simp only [hms, SearchResult.isLow, bool_if_false, bool_if_true, Bool.false_eq_true, Bool.true_eq_false, if_true, if_false] at h
      · -- the move produced a score: the window and best move advance
        split at h
        · exact absurd h (by simp)
        · rename_i hcont
          have hc2 : bounds.contains score = true := not_not.mp hcont
          rcases hbc : best with _ | ⟨bs, bm⟩ <;> simp only [hbc] at h
          · refine ih _ _ _ _ _ h ?_ ?_ ?_ ?_ ?_ ?_
            all_goals first
              | (intro s hs
                 exact hsub s (contains_update_max hs))
              | (intro s hs
                 exact hsub s (contains_update_min hs))
              | (intro hfx
                 first
                   | (rw [update_max_min_eq]
                      exact hminS hfx)
                   | (rw [update_min_max_eq]
                      exact hmaxS hfx)
                   | exact absurd hfx (by simp))
              | (intro hcon
                 exact absurd hcon (by simp))
              | (intro s m heq
                 injection heq with heq
                 injection heq with heq1 heq2
                 subst heq1
                 subst heq2
                 exact ⟨hsub score hc2, hmoves mv (List.mem_cons_self mv rest)⟩)
              | (intro m hm
                 exact hmoves m (List.mem_cons_of_mem _ hm))
          · split at h <;> refine ih _ _ _ _ _ h ?_ ?_ ?_ ?_ ?_ ?_
            all_goals first
              | (intro s hs
                 exact hsub s (contains_update_max hs))
              | (intro s hs
                 exact hsub s (contains_update_min hs))
              | (intro hfx
                 first
                   | (rw [update_max_min_eq]
                      exact hminS hfx)
                   | (rw [update_min_max_eq]
                      exact hmaxS hfx)
                   | exact absurd hfx (by simp))
              | (intro hcon
                 exact absurd hcon (by simp))
              | (intro s m heq
                 injection heq with heq
                 injection heq with heq1 heq2
                 subst heq1
                 subst heq2
                 first
                   | exact ⟨hsub score hc2, hmoves mv (List.mem_cons_self mv rest)⟩
                   | exact hbest bs bm hbc)
              | (intro m hm
                 exact hmoves m (List.mem_cons_of_mem _ hm))
      · -- the move pruned Low: continue when maximizing, else return Low
        first
          | exact ih _ _ _ _ _ h hsub hminS hmaxS hbest0 hbest
              (fun m hm => hmoves m (List.mem_cons_of_mem _ hm))
          | (rcases hut : update_table_for_result (M := M) t1 pos dm depth bounds .low
                with _ | t2 <;>
              simp only [hut, Option.some.injEq, Prod.mk.injEq] at h
             · exact absurd h (by simp)
             · obtain ⟨h1, h2⟩ := h
               subst h1
               refine ⟨?_, ?_, ?_⟩
               · intro s mv2 heq
                 exact absurd heq (by simp)
               · intro _
                 rw [← hminS rfl]
                 exact update_table_low_min hut
               · intro heq
                 exact absurd heq (by simp))
      · -- the move pruned High: continue when minimizing, else return High
        first
          | exact ih _ _ _ _ _ h hsub hminS hmaxS hbest0 hbest
              (fun m hm => hmoves m (List.mem_cons_of_mem _ hm))
          | (rcases hut : update_table_for_result (M := M) t1 pos dm depth bounds .high
                with _ | t2 <;>
              simp only [hut, Option.some.injEq, Prod.mk.injEq] at h
             · exact absurd h (by simp)
             · obtain ⟨h1, h2⟩ := h
               subst h1
               refine ⟨?_, ?_, ?_⟩
               · intro s mv2 heq
                 exact absurd heq (by simp)
               · intro heq
                 exact absurd heq (by simp)
               · intro _
                 rw [← hmaxS rfl]
                 exact update_table_high_max hut)

/-- The search postcondition, established by cases on the entry paths
(table hit, leaf, move loop): any returned score is inside the caller's
window, any returned move comes from the board's move list, and
Low/High are returned only when the corresponding caller bound is
present. -/
theorem get_scored_best_move_spec {B M : Type} (ops : BoardOps B M) (lookahead : ℕ)
    (depth : ℕ) (board : B) (bounds : Bounds) (table : PositionTable ScoreInfo)
    (res : SearchResult M) (t' : PositionTable ScoreInfo)
    (h : get_scored_best_move ops lookahead depth board bounds table = some (res, t')) :
    (∀ s mv, res = .result s mv → bounds.contains s = true ∧
      ∀ m, mv = some m → m ∈ ops.all_moves board) ∧
    (res = .low → bounds.min ≠ none) ∧
    (res = .high → bounds.max ≠ none) := by
  cases depth with
  | zero =>
    simp only [get_scored_best_move] at h
    split at h
    · exact absurd h (by simp)
    · split at h
      · exact absurd h (by simp)
      · rename_i r2 htc
        simp only [Option.some.injEq, Prod.mk.injEq] at h
        obtain ⟨h1, h2⟩ := h
        subst h1
        obtain ⟨ha, hb, hc⟩ := table_check_spec htc
        refine ⟨?_, hb, hc⟩
        intro s mv heq
        refine ⟨(ha s mv heq).1, ?_⟩
        intro m hm
        rw [(ha s mv heq).2] at hm
        exact absurd hm (by simp)
      · simp only [Option.some.injEq] at h
        have hfst := congrArg Prod.fst h
        simp only at hfst
        obtain ⟨hl, hh, hr⟩ :=
          @leaf_step_spec M (ops.evaluate board) bounds ⟨ops.zobrist board⟩
            (ops.dead_moves board) 0 table
        rw [hfst] at hl hh hr
        refine ⟨?_, hl, hh⟩
        intro s mv heq
        refine ⟨(hr s mv heq).1, ?_⟩
        intro m hm
        rw [(hr s mv heq).2] at hm
        exact absurd hm (by simp)
  | succ d =>
    simp only [get_scored_best_move] at h
    split at h
    · exact absurd h (by simp)
    · split at h
      · exact absurd h (by simp)
      · rename_i r2 htc
        simp only [Option.some.injEq, Prod.mk.injEq] at h
        obtain ⟨h1, h2⟩ := h
        subst h1
        obtain ⟨ha, hb, hc⟩ := table_check_spec htc
        refine ⟨?_, hb, hc⟩
        intro s mv heq
        refine ⟨(ha s mv heq).1, ?_⟩
        intro m hm
        rw [(ha s mv heq).2] at hm
        exact absurd hm (by simp)
      · split at h
        · simp only [Option.some.injEq] at h
          have hfst := congrArg Prod.fst h
          simp only at hfst
          obtain ⟨hl, hh, hr⟩ :=
            @leaf_step_spec M (ops.evaluate board) bounds ⟨ops.zobrist board⟩
              (ops.dead_moves board) (d + 1) table
          rw [hfst] at hl hh hr
          refine ⟨?_, hl, hh⟩
          intro s mv heq
          refine ⟨(hr s mv heq).1, ?_⟩
          intro m hm
          rw [(hr s mv heq).2] at hm
          exact absurd hm (by simp)
        · exact search_loop_spec (get_scored_best_move ops lookahead d) ops board (d + 1)
            (decide (ops.side_to_move board = .white)) ⟨ops.zobrist board⟩
            (ops.dead_moves board) bounds (ops.all_moves board) (ops.all_moves board)
            bounds none table res t' h (fun _ hs => hs) (fun _ => rfl) (fun _ => rfl)
            (fun _ => rfl) (fun s m heq => absurd heq (by simp)) (fun _ hm => hm)

/-! ## Claim C2: the search result postcondition -/

/-- C2: whenever `get_scored_best_move` returns `Result(s, _)` the score
is contained in the caller's (valid) bounds; it returns `Low` only when
the caller's min bound is present and `High` only when the caller's max
bound is present — exactly the facts the `expect`s in
`update_table_for_result` rely on. -/
theorem C2_search_postcondition {B M : Type} (ops : BoardOps B M) (lookahead : ℕ)
    (depth : ℕ) (board : B) (bounds : Bounds) (table : PositionTable ScoreInfo)
    (res : SearchResult M) (t' : PositionTable ScoreInfo)
    (hv : bounds.valid = true)
    (h : get_scored_best_move ops lookahead depth board bounds table = some (res, t')) :
    (∀ s mv, res = .result s mv → bounds.contains s = true) ∧
    (res = .low → bounds.min ≠ none) ∧
    (res = .high → bounds.max ≠ none) := by
  obtain ⟨ha, hb, hc⟩ := get_scored_best_move_spec ops lookahead depth board bounds table res t' h
  exact ⟨fun s mv heq => (ha s mv heq).1, hb, hc⟩

/-- C2 witness: a concrete search call on the one-state game. -/
theorem C2_witness :
    Bounds.contains { min := some 0, max := none } 100 = true := by
  have h := C2_search_postcondition unit_ops 0 0 () { min := some 0, max := none }
    (PositionTable.empty ScoreInfo) (.result 100 none)
    (PositionTable.insert_position (PositionTable.empty ScoreInfo) ⟨0⟩ ⟨0, 0⟩
      (ScoreInfo.from_score 100))
    (by decide) rfl
  exact h.1 100 none rfl

/-! ## Claim C10: widest-bounds searches never prune -/

/-- C10: a search under `Bounds::widest()` can only return a `Result`:
`Low` and `High` require a present min (resp. max) caller bound, and the
widest bounds have neither, so the
`panic!("pruning should not happen with the widest bounds")` arms in
`evaluate` and `get_move` are unreachable. -/
theorem C10_widest_never_prunes {B M : Type} (ops : BoardOps B M) (lookahead : ℕ)
    (depth : ℕ) (board : B) (table : PositionTable ScoreInfo)
    (res : SearchResult M) (t' : PositionTable ScoreInfo)
    (h : get_scored_best_move ops lookahead depth board Bounds.widest table = some (res, t')) :
    ∃ s mv, res = .result s mv := by
  obtain ⟨ha, hb, hc⟩ :=
    get_scored_best_move_spec ops lookahead depth board Bounds.widest table res t' h
  rcases res with ⟨s, mv⟩ | _ | _
  · exact ⟨s, mv, rfl⟩
  · exact (hb rfl rfl).elim
  · exact (hc rfl rfl).elim

/-- C10 witness: a concrete widest-bounds search returning a result. -/
theorem C10_witness :
    ∃ s mv, (SearchResult.result 100 (none : Option Unit)) = .result s mv :=
  C10_widest_never_prunes unit_ops 0 0 () (PositionTable.empty ScoreInfo)
    (.result 100 none)
    (PositionTable.insert_position (PositionTable.empty ScoreInfo) ⟨0⟩ ⟨0, 0⟩
      (ScoreInfo.from_score 100)) rfl

/-! ## Claim C8: `get_move` returns a legal move -/

/-- C8: whenever `get_move` returns a move for an in-progress board, the
move is a member of the board's `all_moves()` enumeration. -/
theorem C8_get_move_legal {B M : Type} (ops : BoardOps B M) (lookahead : ℕ)
    (board : B) (table : PositionTable ScoreInfo)
    (mv : M) (t' : PositionTable ScoreInfo)
    (hstatus : ops.status board = .inProgress)
    (h : alphabeta_get_move ops lookahead board table = some (mv, t')) :
    mv ∈ ops.all_moves board := by
  unfold alphabeta_get_move at h
  rcases hgs : get_scored_best_move ops lookahead lookahead board Bounds.widest table
      with _ | ⟨r, t2⟩
  · rw [hgs] at h
    exact absurd h (by simp)
  · rcases r with ⟨s, rmv⟩ | _ | _
    · rcases rmv with _ | m
      · simp only [hgs] at h
        exact absurd h (by simp)
      · simp only [hgs, Option.some.injEq, Prod.mk.injEq] at h
        obtain ⟨h1, h2⟩ := h
        subst h1
        obtain ⟨ha, hb, hc⟩ :=
          get_scored_best_move_spec ops lookahead lookahead board Bounds.widest table _ _ hgs
        exact (ha s (some m) rfl).2 m rfl
    · simp only [hgs] at h
      exact absurd h (by simp)
    · simp only [hgs] at h
      exact absurd h (by simp)

/-- C8 witness: the two-state game returns its only move. -/
theorem C8_witness : () ∈ bool_ops.all_moves true := by
  apply C8_get_move_legal bool_ops 1 true (PositionTable.empty ScoreInfo) ()
    (PositionTable.insert_position
      (PositionTable.insert_position (PositionTable.empty ScoreInfo) ⟨1⟩ ⟨0, 0⟩
        (ScoreInfo.from_score (2 ^ 30))) ⟨0⟩ ⟨1, 0⟩ (ScoreInfo.from_score (2 ^ 30)))
    rfl
  rfl

/-! ## Claim C9: Zobrist hash consistency (my_board.rs)

Every mutator of `MyBoard` updates `zobrist_hash` incrementally; the
claim is that the stored hash always equals `hash_spec`, the key
recomputed from scratch.  The lemmas below show the invariant is
established by `initial_board` and preserved by each mutator. -/

theorem nat_xor_left_comm (a b c : ℕ) : a ^^^ (b ^^^ c) = b ^^^ (a ^^^ c) := by
  rw [← Nat.xor_assoc, Nat.xor_comm a b, Nat.xor_assoc]

theorem foldr_xor_congr (f g : Square → ℕ) (l : List Square)
    (h : ∀ sq ∈ l, f sq = g sq) :
    l.foldr (fun sq acc => f sq ^^^ acc) 0 = l.foldr (fun sq acc => g sq ^^^ acc) 0 := by
  induction l with
  | nil => rfl
  | cons t ts ih =>
    simp only [List.foldr_cons]
    rw [h t (by simp), ih (fun sq hsq => h sq (by simp [hsq]))]

/-- Changing a function at one square of a nodup square list changes the
XOR fold by XORing out the old term and XORing in the new one. -/
theorem foldr_xor_update (f g : Square → ℕ) (sq0 : Square) (l : List Square)
    (hnd : l.Nodup) (hmem : sq0 ∈ l)
    (h : ∀ sq ∈ l, sq ≠ sq0 → f sq = g sq) :
    l.foldr (fun sq acc => g sq ^^^ acc) 0 =
      l.foldr (fun sq acc => f sq ^^^ acc) 0 ^^^ f sq0 ^^^ g sq0 := by
  induction l with
  | nil => exact absurd hmem (by simp)
  | cons t ts ih =>
    simp only [List.foldr_cons]
    rcases List.mem_cons.mp hmem with heq | hmem2
    · subst heq
      have hnotin : sq0 ∉ ts := (List.nodup_cons.mp hnd).1
      rw [foldr_xor_congr g f ts (fun sq hsq =>
        (h sq (List.mem_cons_of_mem sq0 hsq) (fun hEq => hnotin (hEq ▸ hsq))).symm)]
      simp [Nat.xor_assoc, Nat.xor_comm, nat_xor_left_comm, Nat.xor_cancel_left,
        Nat.xor_self, Nat.xor_zero, Nat.zero_xor]
    · have hne : t ≠ sq0 := fun hEq => (List.nodup_cons.mp hnd).1 (hEq ▸ hmem2)
      rw [ih (List.nodup_cons.mp hnd).2 hmem2
        (fun sq hsq hs => h sq (List.mem_cons_of_mem t hsq) hs),
        h t (List.mem_cons_self t ts) hne]
      simp [Nat.xor_assoc]

theorem piece_xor_update (z : Zobrist) (ps ps2 : Square → Option (Piece × Color))
    (sq0 : Square) (h : ∀ sq, sq ≠ sq0 → ps2 sq = ps sq) :
    piece_xor z ps2 =
      piece_xor z ps ^^^ piece_term z ps sq0 ^^^ piece_term z ps2 sq0 :=
  foldr_xor_update (piece_term z ps) (piece_term z ps2) sq0 (List.finRange 64)
    (List.nodup_finRange 64) (List.mem_finRange sq0)
    (fun sq _ hne => by unfold piece_term; rw [h sq hne])

/-- Characterisation of `set_piece`: it updates the piece array at `sq`,
keeps the castling rights and the side to move, and XORs the old and new
piece terms into the hash. -/
theorem set_piece_spec (z : Zobrist) (b : MyBoard) (sq : Square)
    (pc : Option (Piece × Color)) :
    (MyBoard.set_piece z b sq pc).pieces = (fun s => if s = sq then pc else b.pieces s) ∧
    (MyBoard.set_piece z b sq pc).castle_rights = b.castle_rights ∧
    (MyBoard.set_piece z b sq pc).side_to_move = b.side_to_move ∧
    (MyBoard.set_piece z b sq pc).zobrist_hash =
      b.zobrist_hash ^^^ piece_term z b.pieces sq ^^^ piece_term z (fun _ => pc) sq := by
  rcases hbs : b.pieces sq with _ | ⟨p, c⟩
  · rcases pc with _ | ⟨p2, c2⟩
    · simp [MyBoard.set_piece, piece_term, hbs]
    · rcases c2 <;> simp [MyBoard.set_piece, piece_term, hbs]
  · rcases c <;> rcases pc with _ | ⟨p2, c2⟩ <;>
      first
        | (rcases c2 <;> simp [MyBoard.set_piece, piece_term, hbs])
        | simp [MyBoard.set_piece, piece_term, hbs]

theorem set_piece_inv (z : Zobrist) (b : MyBoard) (sq : Square)
    (pc : Option (Piece × Color)) (h : b.zobrist_hash = hash_spec z b) :
    (MyBoard.set_piece z b sq pc).zobrist_hash = hash_spec z (MyBoard.set_piece z b sq pc) := by
  obtain ⟨hp, hc, hs, hh⟩ := set_piece_spec z b sq pc
  rw [hh, h]
  unfold hash_spec
  rw [hp, hc, hs]
  rw [piece_xor_update z b.pieces (fun s => if s = sq then pc else b.pieces s) sq
    (fun s hne => by simp [hne])]
  have hterm : piece_term z (fun s => if s = sq then pc else b.pieces s) sq
      = piece_term z (fun _ => pc) sq := by simp [piece_term]
  rw [hterm]
  simp [Nat.xor_assoc, Nat.xor_comm, nat_xor_left_comm]

theorem set_castle_rights_inv (z : Zobrist) (b : MyBoard) (c : Color) (r : CastleRights)
    (h : b.zobrist_hash = hash_spec z b) :
    (MyBoard.set_castle_rights z b c r).zobrist_hash =
      hash_spec z (MyBoard.set_castle_rights z b c r) := by
  unfold hash_spec at h
  rcases c <;>
    simp [MyBoard.set_castle_rights, hash_spec, h, Nat.xor_assoc, Nat.xor_comm,
      nat_xor_left_comm, Nat.xor_cancel_left, Nat.xor_self, Nat.xor_zero, Nat.zero_xor]

theorem switch_side_to_move_inv (z : Zobrist) (b : MyBoard)
    (h : b.zobrist_hash = hash_spec z b) :
    (MyBoard.switch_side_to_move z b).zobrist_hash =
      hash_spec z (MyBoard.switch_side_to_move z b) := by
  unfold hash_spec at h ⊢
  rcases hstm : b.side_to_move <;>
    simp only [hstm, stm_term] at h <;>
    simp [MyBoard.switch_side_to_move, hstm, Color.not, stm_term, h, Nat.xor_assoc,
      Nat.xor_comm, nat_xor_left_comm, Nat.xor_cancel_left, Nat.xor_self,
      Nat.xor_zero, Nat.zero_xor]

theorem dead_move_step_inv {b b' : MyBoard} {cap : Bool} {p : Piece} {z : Zobrist}
    (hd : dead_move_step b cap p = some b')
    (h : b.zobrist_hash = hash_spec z b) :
    b'.zobrist_hash = hash_spec z b' := by
  unfold dead_move_step at hd
  split at hd
  · injection hd with hd
    subst hd
    exact h
  · split at hd
    · injection hd with hd
      subst hd
      exact h
    · exact Option.noConfusion hd

theorem castle_rook_step_inv {z : Zobrist} {b : MyBoard} {m : ChessMove} {p : Piece}
    {c : Color} (h : b.zobrist_hash = hash_spec z b) :
    (castle_rook_step z b m p c).zobrist_hash =
      hash_spec z (castle_rook_step z b m p c) := by
  unfold castle_rook_step
  split
  · split
    · exact set_piece_inv z _ _ _ (set_piece_inv z _ _ _ h)
    · split
      · exact set_piece_inv z _ _ _ (set_piece_inv z _ _ _ h)
      · exact h
  · exact h

/-- A status-only record update keeps the hash invariant (the hash does
not depend on the status field). -/
theorem status_update_inv {z : Zobrist} {b : MyBoard} {st : Status}
    (h : b.zobrist_hash = hash_spec z b) :
    ({ b with status := st } : MyBoard).zobrist_hash =
      hash_spec z { b with status := st } :=
  h

theorem apply_move_unchecked_inv {z : Zobrist} {b b' : MyBoard} {m : ChessMove}
    (hmv : b.apply_move_unchecked z m = some b')
    (h : b.zobrist_hash = hash_spec z b) :
    b'.zobrist_hash = hash_spec z b' := by
  unfold MyBoard.apply_move_unchecked at hmv
  rcases hab : b.awaiting_bonus
  · simp only [hab, Bool.false_eq_true, if_false] at hmv
    rcases hsrc : b.pieces m.source with _ | ⟨p, c⟩
    · rw [hsrc] at hmv
      exact Option.noConfusion hmv
    · simp only [hsrc] at hmv
      split at hmv
      · exact Option.noConfusion hmv
      · rename_i b4 heq
        simp only [Option.some.injEq] at hmv
        subst hmv
        apply switch_side_to_move_inv
        have h4 : b4.zobrist_hash = hash_spec z b4 := by
          apply dead_move_step_inv heq
          split
          · exact status_update_inv
              (set_castle_rights_inv z _ _ _ (set_castle_rights_inv z _ _ _ h))
          · exact set_castle_rights_inv z _ _ _ (set_castle_rights_inv z _ _ _ h)
        rcases m.promotion with _ | pp
        · exact castle_rook_step_inv (set_piece_inv z _ _ _ (set_piece_inv z _ _ _ h4))
        · exact set_piece_inv z _ _ _
            (castle_rook_step_inv (set_piece_inv z _ _ _ (set_piece_inv z _ _ _ h4)))
  · simp only [hab, if_true] at hmv
    exact Option.noConfusion hmv

theorem apply_move_inv {z : Zobrist} {mg : MoveGen} {b b' : MyBoard} {m : ChessMove}
    (hmv : b.apply_move z mg m = some b')
    (h : b.zobrist_hash = hash_spec z b) :
    b'.zobrist_hash = hash_spec z b' := by
  unfold MyBoard.apply_move at hmv
  split at hmv
  · exact Option.noConfusion hmv
  · split at hmv
    · exact apply_move_unchecked_inv hmv h
    · exact Option.noConfusion hmv

theorem apply_bonus_unchecked_inv {z : Zobrist} {b b' : MyBoard} {ib : Bool}
    (hb : b.apply_bonus_unchecked z ib = some b')
    (h : b.zobrist_hash = hash_spec z b) :
    b'.zobrist_hash = hash_spec z b' := by
  unfold MyBoard.apply_bonus_unchecked at hb
  split at hb
  · exact Option.noConfusion hb
  · injection hb with hb
    subst hb
    rcases ib
    · exact h
    · exact switch_side_to_move_inv z _ h

theorem apply_bonus_inv {z : Zobrist} {mg : MoveGen} {b b' : MyBoard} {ib : Bool}
    (hb : b.apply_bonus z mg ib = some b')
    (h : b.zobrist_hash = hash_spec z b) :
    b'.zobrist_hash = hash_spec z b' := by
  unfold MyBoard.apply_bonus at hb
  rcases hu : b.apply_bonus_unchecked z ib with _ | b1
  · rw [hu] at hb
    exact Option.noConfusion hb
  · simp only [hu, Option.some.injEq] at hb
    subst hb
    have h1 := apply_bonus_unchecked_inv hu h
    split
    · exact h1
    · exact h1

theorem initial_board_inv (z : Zobrist) (c : Color) :
    (MyBoard.initial_board z c).zobrist_hash = hash_spec z (MyBoard.initial_board z c) := by
  rcases c <;> rfl

/-- C9: every board produced by `initial_board` followed by any sequence
of `apply_move` / `apply_move_unchecked` / `apply_bonus` /
`apply_bonus_unchecked` (each step succeeding) has its stored
`zobrist_hash` equal to the key recomputed from scratch: the XOR of the
piece terms of every occupied square, the castling-rights terms of both
colors, and the side-to-move term (present exactly when Black is to
move). -/
theorem C9_zobrist_consistency (z : Zobrist) (mg : MoveGen) (b : MyBoard)
    (h : ReachableBoard z mg b) : b.zobrist_hash = hash_spec z b := by
  induction h with
  | initial c => exact initial_board_inv z c
  | move m _ heq ih => exact apply_move_inv heq ih
  | move_unchecked m _ heq ih => exact apply_move_unchecked_inv heq ih
  | bonus ib _ heq ih => exact apply_bonus_inv heq ih
  | bonus_unchecked ib _ heq ih => exact apply_bonus_unchecked_inv heq ih

/-- C9 witness: the initial board (concrete Zobrist constants `z0`,
White to move) is reachable and satisfies the hash invariant. -/
theorem C9_witness :
    (MyBoard.initial_board z0 .white).zobrist_hash =
      hash_spec z0 (MyBoard.initial_board z0 .white) :=
  C9_zobrist_consistency z0 mg0 (MyBoard.initial_board z0 .white)
    (ReachableBoard.initial .white)

end RandomChess
